import Mathlib

/-!
# gondola: blob store and filesystem driver

A shallow embedding of `blobstore/store.go` and `blobstore/driver/file/file.go`.

Go strings are byte sequences; here a string is a list whose elements each
stand for one byte, so ASCII text is written with `String.toList`.
Functions that can abort (an out-of-range slice, a call of `panic`) return a
`Run`, which is either the values the function returned or the abort.
-/

namespace Gondola

/-- A Go string: one list element per byte. -/
abbrev GoString := List Char

/-- Outcome of running a Go function: it returned, or it aborted with a panic. -/
inductive Run (α : Type) where
  | done (a : α)
  | panic (msg : String)
  deriving Repr, DecidableEq

/-! ## Standard library: `path.Ext`, `filepath.Join`, `filepath.Clean` (Unix) -/

/-- Loop of `path.Ext`: `i` runs from `n - 1` down to `0` and stops at a slash;
the argument is `i + 1`. -/
def extFrom (p : GoString) : Nat → GoString
  | 0 => []
  | i + 1 =>
    if p.getD i '/' = '/' then []
    else if p.getD i '/' = '.' then p.drop i
    else extFrom p i

/-- Go `path.Ext`: the suffix starting at the last dot of the last
slash-separated element, empty when that element has no dot. -/
def Ext (p : GoString) : GoString := extFrom p p.length

/-- Split a path at every slash. -/
def splitSlash : GoString → List GoString
  | [] => [[]]
  | c :: cs =>
    match splitSlash cs with
    | [] => [[c]]
    | e :: es => if c = '/' then [] :: e :: es else (c :: e) :: es

/-- One step of `filepath.Clean` over path elements; `out` holds the elements
kept so far, last one first. -/
def cleanStep (rooted : Bool) (out : List GoString) (e : GoString) : List GoString :=
  if e = [] ∨ e = ['.'] then out
  else if e = ['.', '.'] then
    match out with
    | [] => if rooted then [] else [e]
    | top :: below => if top = ['.', '.'] then e :: top :: below else below
  else e :: out

/-- Go `filepath.Clean` on Unix: empty and `.` elements are dropped, `..`
removes the element before it, and the empty result is `.`. -/
def Clean (p : GoString) : GoString :=
  if p = [] then ['.']
  else
    let rooted := p.head? = some '/'
    let kept := ((splitSlash p).foldl (cleanStep rooted) []).reverse
    let body := List.intercalate ['/'] kept
    let res := if rooted then '/' :: body else body
    if res = [] then ['.'] else res

/-- Go `filepath.Join`: the elements from the first non-empty one on, joined
with slashes and cleaned; the empty string when every element is empty. -/
def Join : List GoString → GoString
  | [] => []
  | e :: es => if e = [] then Join es else Clean (List.intercalate ['/'] (e :: es))

/-! ## `blobstore/driver/file/file.go` -/

/-- The filesystem driver: base directory and temporary directory. -/
structure fsDriver where
  dir : GoString
  tmpDir : GoString
  deriving Repr, DecidableEq

/-- The id with its extension removed (`id[:len(id)-len(ext)]` when `ext` is
not empty). -/
def stem (id : GoString) : GoString :=
  if Ext id ≠ [] then id.take (id.length - (Ext id).length) else id

/-- Method `fsDriver.path`: the last two bytes of the stem name the directory.
The slice expressions `id[sep:]` and `id[:sep]` abort when `sep` is negative. -/
def fsDriver.path (f : fsDriver) (id : GoString) : Run GoString :=
  let ext := Ext id
  let id := if ext ≠ [] then id.take (id.length - ext.length) else id
  let sep : Int := (id.length : Int) - 2
  if sep < 0 then .panic "slice bounds out of range"
  else .done (Join [f.dir, id.drop sep.toNat, id.take sep.toNat ++ ext])

/-! ## Bytes, fixed-width integers and errors -/

/-- One byte. -/
abbrev Byte := Fin 256

/-- A Go `error` value, by its message. -/
abbrev Err := String

/-- Byte order handed to `encoding/binary`. -/
inductive ByteOrder where
  | bigEndian
  | littleEndian
  deriving Repr, DecidableEq

/-- The `width` low-order bytes of `v`, least significant first. -/
def leBytes : Nat → Nat → List Byte
  | 0, _ => []
  | w + 1, v => ⟨v % 256, Nat.mod_lt v (by decide)⟩ :: leBytes w (v / 256)

/-- The number a byte sequence stands for, least significant byte first. -/
def leValue : List Byte → Nat
  | [] => 0
  | b :: bs => b.val + 256 * leValue bs

/-- Fixed-width encoding of an unsigned integer (`binary.Write`). -/
def encode (o : ByteOrder) (width v : Nat) : List Byte :=
  match o with
  | .littleEndian => leBytes width v
  | .bigEndian => (leBytes width v).reverse

/-- Fixed-width decoding of an unsigned integer (`binary.Read`). -/
def decode (o : ByteOrder) (bs : List Byte) : Nat :=
  match o with
  | .littleEndian => leValue bs
  | .bigEndian => leValue bs.reverse

/-- Go conversion `int(x)` of a `uint64` on a 64-bit platform. -/
def int64 (v : Nat) : Int :=
  if v % 2 ^ 64 < 2 ^ 63 then (v % 2 ^ 64 : Nat) else ((v % 2 ^ 64 : Nat) : Int) - 2 ^ 64

/-- Go `make([]byte, n)`: a zeroed slice; a negative length and a length above
`maxAlloc`, the largest one the runtime honours, abort. -/
def makeBytes (maxAlloc : Nat) (n : Int) : Run (List Byte) :=
  if n < 0 ∨ n > maxAlloc then .panic "makeslice: len out of range"
  else .done (List.replicate n.toNat 0)

/-! ## Raw handles of a driver (`driver.WFile`, `driver.RFile`) -/

/-- State of a raw write handle. `written` are the bytes accepted so far,
`room` the number of further bytes the backend accepts before a write fails
(`none`: writes never fail), `seekable` whether the handle is an `io.Seeker`,
`closes` the number of calls of `Close`. -/
structure WRaw where
  written : List Byte
  room : Option Nat
  seekable : Bool
  closes : Nat
  deriving Repr, DecidableEq

/-- Method `Write` of a raw write handle: the bytes that fit are written, and
the call fails when not all of them fit. -/
def WRaw.Write (w : WRaw) (p : List Byte) : WRaw × Option Err :=
  match w.room with
  | none => ({ w with written := w.written ++ p }, none)
  | some n =>
    if p.length ≤ n then
      ({ w with written := w.written ++ p, room := some (n - p.length) }, none)
    else
      ({ w with written := w.written ++ p.take n, room := some 0 }, some "write error")

/-- Method `Close` of a raw write handle; the store ignores its result. -/
def WRaw.Close (w : WRaw) : WRaw := { w with closes := w.closes + 1 }

/-- State of a raw read handle. `rest` are the bytes not yet read, `chunk`
bounds a single `Read` (`some k`: at most `k + 1` bytes per call, `none`: no
bound), `reads` lists the sizes asked for so far, `closes` counts `Close`. -/
structure RRaw where
  rest : List Byte
  chunk : Option Nat
  reads : List Nat
  closes : Nat
  deriving Repr, DecidableEq

/-- Number of bytes one `Read` into a buffer of `n` bytes transfers. -/
def RRaw.transfer (r : RRaw) (n : Nat) : Nat :=
  match r.chunk with
  | none => min n r.rest.length
  | some k => min n (min (k + 1) r.rest.length)

/-- Method `Read` of a raw read handle into a buffer of `n` bytes: the bytes
transferred, and `EOF` when the buffer is not empty and nothing is left. -/
def RRaw.Read (r : RRaw) (n : Nat) : RRaw × List Byte × Option Err :=
  let r1 := { r with reads := r.reads ++ [n] }
  if n = 0 then (r1, [], none)
  else if r.rest = [] then (r1, [], some "EOF")
  else ({ r1 with rest := r.rest.drop (r.transfer n) }, r.rest.take (r.transfer n), none)

/-- Method `Close` of a raw read handle; the store ignores its result. -/
def RRaw.Close (r : RRaw) : RRaw := { r with closes := r.closes + 1 }

/-- The reads of `r` fill a buffer of `n` bytes whenever `n` bytes are left. -/
def RRaw.fills (r : RRaw) (n : Nat) : Prop :=
  match r.chunk with
  | none => True
  | some k => n ≤ k + 1

instance (r : RRaw) (n : Nat) : Decidable (r.fills n) := by
  unfold RRaw.fills; cases r.chunk <;> exact inferInstance

/-- The storage driver as the store sees it: `Create` and `Open` hand out raw
handles or fail. -/
structure Driver where
  Create : GoString → Except Err WRaw
  Open : GoString → Except Err RRaw

/-! ## The metadata argument -/

/-- The `meta interface{}` argument: the nil interface, a nil pointer, or a
value to serialize. -/
inductive Meta (μ : Type) where
  | nil
  | nilPtr
  | value (m : μ)
  deriving Repr, DecidableEq

/-- Function `isNil`: true for a pointer or interface kind that is nil. The nil
interface itself has the invalid kind, for which the answer is false. -/
def isNil {μ : Type} : Meta μ → Bool
  | .nil => false
  | .nilPtr => true
  | .value _ => false

/-- The test `meta != nil` against the nil interface. -/
def Meta.nonNil {μ : Type} : Meta μ → Bool
  | .nil => false
  | _ => true

/-! ## Collaborators of the store that live outside `store.go` -/

/-- Helpers of package `blobstore` defined outside `store.go`, and the limit of
the runtime: the byte order `bwrite` and `bread` pass to `encoding/binary`, the
64-bit hash computed by `newHash` (write the bytes, take `Sum64`), the
metadata serializer `marshal`, and the largest length `make` honours. A byte
string the serializer returned is a slice that exists, so it is within that
limit. -/
structure Codec (μ : Type) where
  order : ByteOrder
  hash : List Byte → Nat
  marshal : Meta μ → Except Err (List Byte)
  maxAlloc : Nat
  marshal_fits : ∀ m d, marshal m = .ok d → d.length ≤ maxAlloc

/-- The 64-bit hash of a byte string, as a `uint64`. -/
def Codec.sum64 {μ : Type} (c : Codec μ) (d : List Byte) : Nat := c.hash d % 2 ^ 64

/-- Modelled from the spec: helper `bwrite` (absent from the sources) writes one
fixed-width unsigned field, 1 byte for the version and 8 bytes for every other
header field, with a single `Write` of the raw handle. -/
def bwrite {μ : Type} (c : Codec μ) (w : WRaw) (width v : Nat) : WRaw × Option Err :=
  w.Write (encode c.order width v)

/-- Modelled from the spec: helper `bread` (absent from the sources) reads one
fixed-width unsigned field. It fails when fewer than `width` bytes are left,
with `EOF` when none is left, and then nothing is left to read. -/
def bread {μ : Type} (c : Codec μ) (r : RRaw) (width : Nat) : RRaw × Except Err Nat :=
  let r1 := { r with reads := r.reads ++ [width] }
  if width ≤ r.rest.length then
    ({ r1 with rest := r.rest.drop width }, .ok (decode c.order (r.rest.take width)))
  else
    ({ r1 with rest := [] }, .error (if r.rest = [] then "EOF" else "unexpected EOF"))

/-! ## `blobstore/store.go` -/

/-- A connection to a blobstore. -/
structure Store where
  drv : Driver

/-- The write handle `CreateId` builds. Its field `wfile` refers to the raw
handle, whose state is field `raw` of `CreateOutcome`; `seeker` tells whether
the raw handle was kept as an `io.Seeker`; `dataHash` holds the bytes fed to
the fresh data hash, none yet. -/
structure WFile where
  id : GoString
  metadataLength : Nat
  dataHash : List Byte
  seeker : Bool
  deriving Repr, DecidableEq

/-- The read handle `Open` builds. Its field `rfile` refers to the raw handle,
whose state is field `raw` of `OpenOutcome`. -/
structure RFile where
  id : GoString
  metadataHash : Nat
  metadataData : List Byte
  dataLength : Nat
  dataHash : Nat
  deriving Repr, DecidableEq

/-- What a call of `CreateId` leaves behind: the returned pair `(wfile, err)`
or the abort, the state of the raw handle when the driver handed one out, and
the ids passed to the driver method `Remove`, in order. -/
structure CreateOutcome where
  result : Run (Option WFile × Option Err)
  raw : Option WRaw
  removed : List GoString
  deriving Repr, DecidableEq

/-- What a call of `Open` leaves behind: the returned pair `(rfile, err)` or
the abort, and the state of the raw handle when the driver handed one out. -/
structure OpenOutcome where
  result : Run (Option RFile × Option Err)
  raw : Option RRaw
  deriving Repr, DecidableEq

/-- Run `k` on the handle when the write before it succeeded, and return its
error otherwise (`if err = ...; err != nil { return }`). -/
def andThen (r : WRaw × Option Err) (k : WRaw → WRaw × Option WFile × Option Err) :
    WRaw × Option WFile × Option Err :=
  match r with
  | (w, some e) => (w, none, some e)
  | (w, none) => k w

/-- Tail of `CreateId`: reserve the data header on a seekable handle, then
build the write handle. -/
def createTail {μ : Type} (c : Codec μ) (id : GoString) (metadataLength : Nat) (w : WRaw) :
    WRaw × Option WFile × Option Err :=
  let handle : WFile :=
    { id := id, metadataLength := metadataLength, dataHash := [], seeker := w.seekable }
  if w.seekable then
    andThen (bwrite c w 8 0) fun w =>
    andThen (bwrite c w 8 0) fun w =>
    (w, some handle, none)
  else (w, some handle, none)

/-- Body of `CreateId` after the driver handed out the raw handle `w`, up to
the deferred cleanup. -/
def createBody {μ : Type} (c : Codec μ) (id : GoString) (m : Meta μ) (w : WRaw) :
    WRaw × Option WFile × Option Err :=
  andThen (bwrite c w 1 1) fun w =>
  andThen (bwrite c w 8 0) fun w =>
  if m.nonNil && !isNil m then
    match c.marshal m with
    | .error e => (w, none, some e)
    | .ok d =>
      andThen (bwrite c w 8 d.length) fun w =>
      andThen (bwrite c w 8 (c.sum64 d)) fun w =>
      andThen (w.Write d) fun w =>
      createTail c id (d.length % 2 ^ 64) w
  else
    andThen (bwrite c w 8 0) fun w =>
    andThen (bwrite c w 8 0) fun w =>
    createTail c id 0 w

/-- Method `Store.CreateId`. A failing driver `Create` reaches `panic(err)`;
the deferred function closes the raw handle and removes the id when the body
left an error. -/
def Store.CreateId {μ : Type} (s : Store) (c : Codec μ) (id : GoString) (m : Meta μ) :
    CreateOutcome :=
  match s.drv.Create id with
  | .error e => { result := .panic e, raw := none, removed := [] }
  | .ok w =>
    match createBody c id m w with
    | (w, _, some e) => { result := .done (none, some e), raw := some w.Close, removed := [id] }
    | (w, wfile, none) => { result := .done (wfile, none), raw := some w, removed := [] }

/-- The read handle as it stands right after `rfile = &RFile{id: id, rfile: r}`. -/
def RFile.fresh (id : GoString) : RFile :=
  { id := id, metadataHash := 0, metadataData := [], dataLength := 0, dataHash := 0 }

/-- Run `k` on the handle and the value read when the read before it succeeded,
and return its error with the current value `keep` of `rfile` otherwise
(`if err = bread(...); err != nil { return }`). -/
def readThen (r : RRaw × Except Err Nat) (keep : Option RFile)
    (k : RRaw → Nat → RRaw × Run (Option RFile × Option Err)) :
    RRaw × Run (Option RFile × Option Err) :=
  match r with
  | (r, .error e) => (r, .done (keep, some e))
  | (r, .ok v) => k r v

/-- End of the body of `Open`: the data length and the data hash. -/
def openTail {μ : Type} (c : Codec μ) (rfile : RFile) (r : RRaw) :
    RRaw × Run (Option RFile × Option Err) :=
  readThen (bread c r 8) (some rfile) fun r dataLength =>
  let rfile := { rfile with dataLength := dataLength }
  readThen (bread c r 8) (some rfile) fun r dataHash =>
  (r, .done (some { rfile with dataHash := dataHash }, none))

/-- Body of `Open` after the driver handed out the raw handle `r`, up to the
deferred cleanup: the values of `rfile` and `err` at the return, or the abort. -/
def openBody {μ : Type} (c : Codec μ) (id : GoString) (r : RRaw) :
    RRaw × Run (Option RFile × Option Err) :=
  readThen (bread c r 1) none fun r version =>
  if version ≠ 1 then
    (r, .done (none, some ("can\x27t read files with version " ++ toString version)))
  else
    readThen (bread c r 8) none fun r _ =>
    let rfile := RFile.fresh id
    readThen (bread c r 8) (some rfile) fun r metadataLength =>
    readThen (bread c r 8) (some rfile) fun r metadataHash =>
    let rfile := { rfile with metadataHash := metadataHash }
    if metadataLength > 0 then
      match makeBytes c.maxAlloc (int64 metadataLength) with
      | .panic msg => (r, .panic msg)
      | .done buf =>
        match r.Read buf.length with
        | (r, got, some e) =>
          (r, .done (some { rfile with metadataData := got ++ buf.drop got.length }, some e))
        | (r, got, none) =>
          openTail c { rfile with metadataData := got ++ buf.drop got.length } r
    else openTail c rfile r

/-- Method `Store.Open`. The deferred function clears `rfile` and closes the
raw handle when the body left an error; an abort leaves `err` nil, so the
handle stays open. -/
def Store.Open {μ : Type} (s : Store) (c : Codec μ) (id : GoString) : OpenOutcome :=
  match s.drv.Open id with
  | .error e => { result := .done (none, some e), raw := none }
  | .ok r =>
    match openBody c id r with
    | (r, .panic msg) => { result := .panic msg, raw := some r }
    | (r, .done (_, some e)) => { result := .done (none, some e), raw := some r.Close }
    | (r, .done (rfile, none)) => { result := .done (rfile, none), raw := some r }

/-- A configuration URL (`config.URL`): the scheme and the rest. -/
structure URL where
  Scheme : GoString
  Value : GoString
  deriving Repr, DecidableEq

/-- A registered driver opener. -/
abbrev Opener := URL → Except Err Driver

/-- Package variable `imports`: the package to import for a known scheme, the
empty string for any other key. -/
def imports (scheme : GoString) : GoString :=
  if scheme = "file".toList then "gnd.la/blobstore/driver/file".toList
  else if scheme = "gridfs".toList then "gnd.la/blobstore/driver/gridfs".toList
  else if scheme = "s3".toList then "gnd.la/blobstore/driver/s3".toList
  else []

/-- Function `New`. `quote` is the verb `%q` of package `fmt`, and `get` the
registry lookup `driver.Get`, which gives no opener for an unregistered
scheme. -/
def New (quote : GoString → String) (get : GoString → Option Opener) (url : Option URL) :
    Run (Option Store × Option Err) :=
  match url with
  | none => .done (none, some "blobstore is not configured")
  | some url =>
    match get url.Scheme with
    | none =>
      if imports url.Scheme ≠ [] then
        .done (none, some ("please import " ++ quote (imports url.Scheme) ++
          " to use the blobstore driver " ++ quote url.Scheme))
      else
        .done (none, some ("unknown blobstore driver " ++ quote url.Scheme ++
          ". Perhaps you forgot an import?"))
    | some opener =>
      match opener url with
      | .error err =>
        .done (none, some ("error opening blobstore driver " ++ quote url.Scheme ++
          ": " ++ err))
      | .ok drv => .done (some { drv := drv }, none)

/-- The header as the format lays it out: version 1, flags 0, metadata length,
metadata hash, the metadata bytes, and 16 zero bytes when `seekable`. -/
def specHeader {μ : Type} (c : Codec μ) (d : List Byte) (seekable : Bool) : List Byte :=
  encode c.order 1 1 ++ encode c.order 8 0 ++ encode c.order 8 d.length ++
    encode c.order 8 (c.sum64 d) ++ d ++ (if seekable then List.replicate 16 0 else [])

/-- The header written for absent metadata: version 1, then flags, metadata
length and metadata hash all 0, and 16 zero bytes when `seekable`. -/
def emptyHeader (seekable : Bool) : List Byte :=
  (1 : Byte) :: List.replicate 24 0 ++ (if seekable then List.replicate 16 0 else [])

/-- A returned triple is well shaped when it carries a handle exactly when it
carries no error. -/
def Shaped (res : WRaw × Option WFile × Option Err) : Prop :=
  (res.2.2 = none → res.2.1 ≠ none) ∧ (res.2.2 ≠ none → res.2.1 = none)

/-- The body of `Open` left the raw handle with `n` closes, and it returned a
read handle whenever it returned no error. -/
def Kept (n : Nat) (res : RRaw × Run (Option RFile × Option Err)) : Prop :=
  res.1.closes = n ∧ ∀ v, res.2 = .done (v, none) → v ≠ none

/-! ## Fixtures: a codec, raw handles and drivers for concrete runs -/

/-- The 64-bit FNV-1a hash. -/
def fnv1a (d : List Byte) : Nat :=
  d.foldl (fun h b => (Nat.xor h b.val) * 1099511628211 % 2 ^ 64) 14695981039346656037

/-- The serializer of `demoCodec`: a byte string is serialized as it is, when
it is no longer than `2 ^ 48` bytes. -/
def demoMarshal (m : Meta (List Byte)) : Except Err (List Byte) :=
  match m with
  | .value v => if v.length ≤ 2 ^ 48 then .ok v else .error "metadata too large"
  | _ => .error "nothing to serialize"

/-- A codec whose metadata values are byte strings serialized as they are. -/
def demoCodec : Codec (List Byte) :=
  { order := .bigEndian
    hash := fnv1a
    marshal := demoMarshal
    maxAlloc := 2 ^ 48
    marshal_fits := by
      intro m d h
      cases m with
      | nil => simp [demoMarshal] at h
      | nilPtr => simp [demoMarshal] at h
      | value v =>
        simp only [demoMarshal] at h
        by_cases hv : v.length ≤ 2 ^ 48
        · rw [if_pos hv] at h
          cases h
          exact hv
        · rw [if_neg hv] at h
          cases h }

/-- A freshly created raw write handle. -/
def freshW (seekable : Bool) (room : Option Nat) : WRaw :=
  { written := [], room := room, seekable := seekable, closes := 0 }

/-- A freshly opened raw read handle over `stream`. -/
def freshR (stream : List Byte) (chunk : Option Nat) : RRaw :=
  { rest := stream, chunk := chunk, reads := [], closes := 0 }

/-- A driver that creates `w` and opens `r` for every id. -/
def fileDriver (w : WRaw) (r : RRaw) : Driver :=
  { Create := fun _ => .ok w, Open := fun _ => .ok r }

/-- A driver whose `Create` and `Open` fail with `e`. -/
def failingDriver (e : Err) : Driver :=
  { Create := fun _ => .error e, Open := fun _ => .error e }

/-- A rendering of the verb `%q`: the text between double quotes. -/
def demoQuote (t : GoString) : String := String.mk ('"' :: t ++ ['"'])

/-! ## The operating system as the driver sees it -/

/-- The flags handed to `os.OpenFile`. -/
inductive OpenFlag where
  | O_RDWR
  | O_CREATE
  | O_EXCL
  deriving Repr, DecidableEq

/-- The functions of package `os` the driver calls, over the states `σ` of the
file system and the open files `φ`; `Exists` tells whether a name exists. What
they answer is up to the operating system. -/
structure OS (σ φ : Type) where
  Exists : σ → GoString → Bool
  OpenFile : σ → GoString → List OpenFlag → Nat → σ × Except Err φ
  Open : σ → GoString → Except Err φ
  Remove : σ → GoString → σ × Option Err

/-- Exclusive-create semantics: `OpenFile` with `O_CREATE|O_EXCL` fails on a
name that exists already. -/
def OS.Exclusive {σ φ : Type} (os : OS σ φ) : Prop :=
  ∀ st name flags perm, OpenFlag.O_CREATE ∈ flags → OpenFlag.O_EXCL ∈ flags →
    os.Exists st name = true → ∃ st1 e, os.OpenFile st name flags perm = (st1, .error e)

/-- The write handle of the filesystem driver: the open temporary file and
the final path of the blob. -/
structure wfile (φ : Type) where
  File : φ
  path : GoString
  deriving Repr, DecidableEq

/-- Method `fsDriver.tmp`. -/
def fsDriver.tmp (f : fsDriver) (id : GoString) : GoString := Join [f.tmpDir, id]

/-- Method `fsDriver.Create`: the temporary file is opened first, and
`f.path(id)` is evaluated when the handle is built. -/
def fsDriver.Create {σ φ : Type} (f : fsDriver) (os : OS σ φ) (st : σ) (id : GoString) :
    σ × Run (Option (wfile φ) × Option Err) :=
  let tmp := Join [f.tmpDir, id]
  match os.OpenFile st tmp [.O_RDWR, .O_CREATE, .O_EXCL] 0o644 with
  | (st, .error err) => (st, .done (none, some err))
  | (st, .ok fp) =>
    match f.path id with
    | .panic msg => (st, .panic msg)
    | .done p => (st, .done (some { File := fp, path := p }, none))

/-- The pair `os.Open` returns. -/
def openResult {φ : Type} (res : Except Err φ) : Option φ × Option Err :=
  match res with
  | .ok fp => (some fp, none)
  | .error err => (none, some err)

/-- Method `fsDriver.Open`. -/
def fsDriver.Open {σ φ : Type} (f : fsDriver) (os : OS σ φ) (st : σ) (id : GoString) :
    Run (Option φ × Option Err) :=
  match f.path id with
  | .panic msg => .panic msg
  | .done p => .done (openResult (os.Open st p))

/-- Method `fsDriver.Remove`. -/
def fsDriver.Remove {σ φ : Type} (f : fsDriver) (os : OS σ φ) (st : σ) (id : GoString) :
    σ × Run (Option Err) :=
  match f.path id with
  | .panic msg => (st, .panic msg)
  | .done p => ((os.Remove st p).1, .done (os.Remove st p).2)

/-- The driver rooted at `base`, with its temporary directory `base/tmp`. -/
def baseDriver : fsDriver := { dir := "base".toList, tmpDir := "base/tmp".toList }

/-! ### A small file system for concrete runs -/

/-- The regular files and the directories that exist, by name. -/
structure Disk where
  files : List GoString
  dirs : List GoString
  deriving Repr, DecidableEq

/-- The directory a cleaned path lies in. -/
def parentDir (name : GoString) : GoString :=
  match (splitSlash name).dropLast with
  | [] => ['.']
  | es => if List.intercalate ['/'] es = [] then ['/'] else List.intercalate ['/'] es

/-- An operating system over `Disk`; an open file is known by its name. A new
file needs its directory, and a directory opens for reading like a file. -/
def diskOS : OS Disk GoString :=
  { Exists := fun d name => decide (name ∈ d.files ∨ name ∈ d.dirs)
    OpenFile := fun d name flags _ =>
      if name ∈ d.files ∨ name ∈ d.dirs then
        if OpenFlag.O_CREATE ∈ flags ∧ OpenFlag.O_EXCL ∈ flags then (d, .error "file exists")
        else if name ∈ d.dirs then (d, .error "is a directory")
        else (d, .ok name)
      else if OpenFlag.O_CREATE ∈ flags ∧ parentDir name ∈ d.dirs then
        ({ d with files := name :: d.files }, .ok name)
      else (d, .error "no such file or directory")
    Open := fun d name =>
      if name ∈ d.files ∨ name ∈ d.dirs then .ok name
      else .error "no such file or directory"
    Remove := fun d name =>
      if name ∈ d.files then ({ d with files := d.files.filter (fun x => x ≠ name) }, none)
      else if name ∈ d.dirs then
        if (d.files ++ d.dirs).any (fun x => decide (parentDir x = name)) then
          (d, some "directory not empty")
        else ({ d with dirs := d.dirs.filter (fun x => x ≠ name) }, none)
      else (d, some "no such file or directory") }

/-- The disk with the base directory and its temporary directory, and no blob. -/
def emptyStore : Disk := { files := [], dirs := ["base".toList, "base/tmp".toList] }

/-! ## `app/context.go` -/

/-- The part of `http.Request` the code reads: the method and the cookies the
request carries, as pairs of name and value. -/
structure Request where
  Method : GoString
  Cookies : List (GoString × GoString)
  deriving Repr, DecidableEq

/-- A call received by the `http.ResponseWriter` behind a context. -/
inductive RWCall where
  | setHeader (name value : GoString)
  | writeHeader (code : Int)
  | write (data : List Byte)
  deriving Repr, DecidableEq

/-- Go conversion of an integer to the 64-bit `int` range. -/
def wrap64 (x : Int) : Int := (x + 2 ^ 63) % 2 ^ 64 - 2 ^ 63

/-- Go unary minus on an `int`. -/
def neg64 (x : Int) : Int := wrap64 (-x)

/-- A Go `map[string]interface{}`: keys with their values, each key once; the
value `none` is the nil interface. -/
abbrev GoMap (V : Type) := List (GoString × Option V)

/-- The map index expression `m[key]`: the nil interface for a missing key. -/
def GoMap.index {V : Type} (m : GoMap V) (key : GoString) : Option V :=
  match m with
  | [] => none
  | (k, v) :: rest => if k = key then v else GoMap.index rest key

/-- The map assignment `m[key] = value`. -/
def GoMap.assign {V : Type} (m : GoMap V) (key : GoString) (value : Option V) : GoMap V :=
  match m with
  | [] => [(key, value)]
  | (k, v) :: rest => if k = key then (k, value) :: rest else (k, v) :: GoMap.assign rest key value

/-- The fields of `App` that `Context.Cookies` reads. -/
structure App where
  CookieCodec : GoString
  CookieOptions : GoString
  deriving Repr, DecidableEq

/-- A cookie jar (`cookies.Cookies`): it keeps the request `cookies.New` was
given, which may be nil. -/
structure Cookies where
  r : Option Request
  deriving Repr, DecidableEq

/-- The fields of `Context` the embedded methods touch. `ResponseWriter` is
nil or the list of calls the writer has received; `R` is nil or the request;
`app` is nil or the app; `cookies` is nil or the jar made earlier; `values` is
the nil map or a map. -/
structure Context (V : Type) where
  ResponseWriter : Option (List RWCall)
  R : Option Request
  app : Option App
  statusCode : Int
  cookies : Option Cookies
  values : Option (GoMap V)
  deriving Repr, DecidableEq

/-- Method `Context.reset`. -/
def Context.reset {V : Type} (c : Context V) : Context V :=
  { c with ResponseWriter := none, R := none, statusCode := 0, cookies := none,
           values := none }

/-- Method `Context.Cookies`: the jar made earlier, or else a new jar for the
request `c.R`, which is kept in the context. Making it reads the fields of
`c.app` and aborts when the app is nil; the signer and the encrypter the app
hands out are passed on to the jar and play no part here. -/
def Context.Cookies {V : Type} (c : Context V) : Context V × Run Cookies :=
  match c.cookies with
  | some jar => (c, .done jar)
  | none =>
    match c.app with
    | none => (c, .panic "nil pointer dereference")
    | some _ => ({ c with cookies := some { r := c.R } }, .done { r := c.R })

/-- Method `Context.StatusCode`. -/
def Context.StatusCode {V : Type} (c : Context V) : Int := c.statusCode

/-- Method `Context.Get`: indexing the nil map gives the nil interface. -/
def Context.Get {V : Type} (c : Context V) (key : GoString) : Option V :=
  match c.values with
  | none => none
  | some m => m.index key

/-- Method `Context.Set`: the map is made when it is nil. -/
def Context.Set {V : Type} (c : Context V) (key : GoString) (value : Option V) : Context V :=
  let values : GoMap V :=
    match c.values with
    | none => []
    | some m => m
  { c with values := some (values.assign key value) }

/-- Method `Context.WriteHeader`. `prof` is the profile header name and value
when `profile.On && profile.Profiling()` holds. Calls on a nil
`ResponseWriter` abort, after the status code has been stored. -/
def Context.WriteHeader {V : Type} (prof : Option (GoString × GoString)) (c : Context V)
    (code : Int) : Context V × Run Unit :=
  let code := if c.statusCode < 0 then neg64 c.statusCode else code
  let c := { c with statusCode := code }
  match c.ResponseWriter with
  | none => (c, .panic "nil pointer dereference")
  | some calls =>
    let calls :=
      match prof with
      | none => calls
      | some (name, header) => calls ++ [.setHeader name header]
    ({ c with ResponseWriter := some (calls ++ [.writeHeader code]) }, .done ())

/-- Method `Context.Write`; the writer's `Write` reports the whole length and
no error. -/
def Context.Write {V : Type} (prof : Option (GoString × GoString)) (c : Context V)
    (data : List Byte) : Context V × Run (Int × Option Err) :=
  let step : Context V × Run Unit :=
    if c.statusCode ≤ 0 then c.WriteHeader prof 200 else (c, .done ())
  match step with
  | (c, .panic msg) => (c, .panic msg)
  | (c, .done _) =>
    match c.ResponseWriter with
    | none => (c, .panic "nil pointer dereference")
    | some calls =>
      ({ c with ResponseWriter := some (calls ++ [.write data]) }, .done (data.length, none))

/-! ## `cache/layer/mediator.go` -/

/-- The mediator `SimpleMediator`. -/
structure SimpleMediator where
  SkipCookies : List GoString
  Expiration : Int
  deriving Repr, DecidableEq

/-- Modelled from the spec: method `Has` of the cookie jar (package `cookies`
is absent) tells whether the request the jar keeps carries a cookie of the
given name; on a jar made for a nil request it aborts. -/
def Cookies.Has (jar : Cookies) (name : GoString) : Run Bool :=
  match jar.r with
  | none => .panic "nil pointer dereference"
  | some r => .done (decide (name ∈ r.Cookies.map Prod.fst))

/-- The loop of `Skip` over `m.SkipCookies`. -/
def skipLoop (jar : Cookies) : List GoString → Run Bool
  | [] => .done false
  | v :: vs =>
    match jar.Has v with
    | .panic msg => .panic msg
    | .done true => .done true
    | .done false => skipLoop jar vs

/-- Method `SimpleMediator.Skip`; reading `ctx.R.Method` on a nil request
aborts, and the jar is the one `ctx.Cookies()` returns. -/
def SimpleMediator.Skip {V : Type} (m : SimpleMediator) (ctx : Context V) :
    Context V × Run Bool :=
  match ctx.R with
  | none => (ctx, .panic "nil pointer dereference")
  | some r =>
    if r.Method ≠ "GET".toList ∧ r.Method ≠ "HEAD".toList then (ctx, .done true)
    else
      match ctx.Cookies with
      | (ctx, .panic msg) => (ctx, .panic msg)
      | (ctx, .done jar) => (ctx, skipLoop jar m.SkipCookies)

/-- The request whose cookies `Skip` consults: the one the jar made earlier
keeps, or else the request of the context, when there is an app to make the
jar. -/
def jarRequest {V : Type} (ctx : Context V) : Option Request :=
  match ctx.cookies with
  | some jar => jar.r
  | none =>
    match ctx.app with
    | none => none
    | some _ => ctx.R

/-- Method `SimpleMediator.Cache`. -/
def SimpleMediator.Cache {V : Type} (_m : SimpleMediator) (_ctx : Context V) (responseCode : Int)
    (_outgoingHeaders : List (GoString × GoString)) : Bool :=
  decide (responseCode = 200)

/-- Method `SimpleMediator.Expires`. -/
def SimpleMediator.Expires {V : Type} (m : SimpleMediator) (_ctx : Context V)
    (_responseCode : Int) (_outgoingHeaders : List (GoString × GoString)) : Int :=
  m.Expiration

/-- A context right after `reset`. -/
def blankContext : Context Nat :=
  { ResponseWriter := none, R := none, app := none, statusCode := 0, cookies := none,
    values := none }

/-- A context serving the request `r` with a writer that has received nothing. -/
def servingContext (r : Request) (status : Int) : Context Nat :=
  { ResponseWriter := some [], R := some r, app := some { CookieCodec := [], CookieOptions := [] },
    statusCode := status, cookies := none, values := none }

/-- A context with the request `r` and neither an app nor a jar, as the zero
value of `Context` with its exported field `R` set. -/
def bareContext (r : Request) : Context Nat :=
  { ResponseWriter := none, R := some r, app := none, statusCode := 0, cookies := none,
    values := none }

/-- The calls `WriteHeader` sends to a writer that has received `calls`: the
profile header when profiling is on, then the status code. -/
def headerCalls (prof : Option (GoString × GoString)) (calls : List RWCall) (code : Int) :
    List RWCall :=
  (match prof with
   | none => calls
   | some (name, header) => calls ++ [.setHeader name header]) ++ [.writeHeader code]

/-! ## Parts of a sharded path -/

/-- The elements `filepath.Clean` keeps of a path, in order. -/
def cleanParts (p : GoString) : List GoString :=
  ((splitSlash p).foldl (cleanStep (decide (p.head? = some '/'))) []).reverse

/-- The cleaned base directory as a prefix of the paths below it: it ends in a
slash unless it is empty, which it is for the current directory. -/
def basePrefix (dir : GoString) : GoString :=
  (if dir.head? = some '/' then ['/'] else []) ++
    (if cleanParts dir = [] then [] else List.intercalate ['/'] (cleanParts dir) ++ ['/'])

/-- The shard of an id: the last two bytes of its stem (`id[sep:]`). -/
def shardOf (id : GoString) : GoString := (stem id).drop ((stem id).length - 2)

/-- The file name of an id below its shard: the stem without its last two
bytes, followed by the extension (`id[:sep]+ext`). -/
def fileOf (id : GoString) : GoString := (stem id).take ((stem id).length - 2) ++ Ext id

/-- A path element that `filepath.Clean` keeps as it is: not empty, without a
slash, and neither `.` nor `..`. -/
def Plain (e : GoString) : Prop := e ≠ [] ∧ '/' ∉ e ∧ e ≠ ['.'] ∧ e ≠ ['.', '.']

instance (e : GoString) : Decidable (Plain e) := by
  unfold Plain; exact inferInstance

/-- The body of `Open` from the metadata bytes on, as `openBody` continues once
the version, the flags, the metadata length and the metadata hash are read. -/
def openMeta {μ : Type} (c : Codec μ) (id : GoString) (metadataLength metadataHash : Nat)
    (r : RRaw) : RRaw × Run (Option RFile × Option Err) :=
  let rfile := { RFile.fresh id with metadataHash := metadataHash }
  if metadataLength > 0 then
    match makeBytes c.maxAlloc (int64 metadataLength) with
    | .panic msg => (r, .panic msg)
    | .done buf =>
      match r.Read buf.length with
      | (r, got, some e) =>
        (r, .done (some { rfile with metadataData := got ++ buf.drop got.length }, some e))
      | (r, got, none) =>
        openTail c { rfile with metadataData := got ++ buf.drop got.length } r
  else openTail c rfile r

/-- `Open` failed on the raw handle `r`: it returned a nil read handle with an
error, and the raw handle has one more `Close` than before. -/
def OpenFailed {μ : Type} (s : Store) (c : Codec μ) (id : GoString) (r : RRaw) : Prop :=
  ∃ e r1, (s.Open c id).result = .done (none, some e) ∧ (s.Open c id).raw = some r1 ∧
    r1.closes = r.closes + 1

/-! # Theorems -/

/-! ## Fixed-width integers -/

theorem leBytes_length (w v : Nat) : (leBytes w v).length = w := by
  induction w generalizing v with
  | zero => rfl
  | succ n ih => simp [leBytes, ih]

theorem leValue_leBytes (w v : Nat) : leValue (leBytes w v) = v % 256 ^ w := by
  induction w generalizing v with
  | zero => simp [leBytes, leValue, Nat.mod_one]
  | succ n ih =>
    simp only [leBytes, leValue, ih]
    rw [pow_succ, mul_comm (256 ^ n) 256, Nat.mod_mul]

theorem leBytes_zero (w : Nat) : leBytes w 0 = List.replicate w 0 := by
  induction w with
  | zero => rfl
  | succ n ih =>
    simp only [leBytes, Nat.zero_div, ih, List.replicate_succ]
    rfl

theorem encode_length (o : ByteOrder) (w v : Nat) : (encode o w v).length = w := by
  cases o <;> simp [encode, leBytes_length]

theorem decode_encode (o : ByteOrder) (w v : Nat) : decode o (encode o w v) = v % 256 ^ w := by
  cases o <;> simp [encode, decode, leValue_leBytes]

theorem encode_zero (o : ByteOrder) (w : Nat) : encode o w 0 = List.replicate w 0 := by
  cases o <;> simp [encode, leBytes_zero]

theorem decode_single (o : ByteOrder) (b : Byte) : decode o [b] = b.val := by
  cases o <;> simp [decode, leValue]

theorem encode_version (o : ByteOrder) : encode o 1 1 = [1] := by
  cases o <;> rfl

/-! ## Raw write handle -/

theorem Write_closes (w : WRaw) (p : List Byte) : (w.Write p).1.closes = w.closes := by
  unfold WRaw.Write
  cases w.room with
  | none => rfl
  | some n => by_cases h : p.length ≤ n <;> simp [h]

theorem Write_seekable (w : WRaw) (p : List Byte) : (w.Write p).1.seekable = w.seekable := by
  unfold WRaw.Write
  cases w.room with
  | none => rfl
  | some n => by_cases h : p.length ≤ n <;> simp [h]

theorem Write_ok {w w1 : WRaw} {p : List Byte} (h : w.Write p = (w1, none)) :
    w1.written = w.written ++ p := by
  unfold WRaw.Write at h
  cases hr : w.room with
  | none => simp only [hr] at h; cases h; rfl
  | some n =>
    simp only [hr] at h
    by_cases hp : p.length ≤ n
    · simp only [hp, if_true] at h; cases h; rfl
    · simp [hp] at h

/-! ## Header writing -/

theorem andThen_inv (P : WRaw → Prop) (r : WRaw × Option Err)
    (k : WRaw → WRaw × Option WFile × Option Err)
    (hr : P r.1) (hk : ∀ w, P w → P (k w).1) : P (andThen r k).1 := by
  rcases r with ⟨w, _ | e⟩
  · exact hk w hr
  · exact hr

theorem andThen_done {r : WRaw × Option Err} {k : WRaw → WRaw × Option WFile × Option Err}
    {w : WRaw} {v : Option WFile} (h : andThen r k = (w, v, none)) :
    ∃ w1, r = (w1, none) ∧ k w1 = (w, v, none) := by
  rcases r with ⟨w1, _ | e⟩
  · exact ⟨w1, rfl, h⟩
  · simp [andThen] at h

theorem andThen_shaped (r : WRaw × Option Err) (k : WRaw → WRaw × Option WFile × Option Err)
    (hk : ∀ w, Shaped (k w)) : Shaped (andThen r k) := by
  rcases r with ⟨w, _ | e⟩
  · exact hk w
  · exact ⟨by simp [andThen], by simp [andThen]⟩

theorem createTail_shaped {μ : Type} (c : Codec μ) (id : GoString) (n : Nat) (w : WRaw) :
    Shaped (createTail c id n w) := by
  unfold createTail
  by_cases hs : w.seekable = true
  · simp only [hs, if_true]
    exact andThen_shaped _ _ fun _ => andThen_shaped _ _ fun _ => ⟨by simp, by simp⟩
  · simp only [hs]
    exact ⟨by simp, by simp⟩

theorem createBody_shaped {μ : Type} (c : Codec μ) (id : GoString) (m : Meta μ) (w : WRaw) :
    Shaped (createBody c id m w) := by
  unfold createBody
  refine andThen_shaped _ _ fun w1 => andThen_shaped _ _ fun w2 => ?_
  by_cases hm : (m.nonNil && !isNil m) = true
  · simp only [hm, if_true]
    cases c.marshal m with
    | error e => exact ⟨by simp, by simp⟩
    | ok d =>
      exact andThen_shaped _ _ fun _ => andThen_shaped _ _ fun _ => andThen_shaped _ _ fun _ =>
        createTail_shaped c id _ _
  · simp only [hm]
    exact andThen_shaped _ _ fun _ => andThen_shaped _ _ fun _ => createTail_shaped c id _ _

theorem createTail_inv {μ : Type} (P : WRaw → Prop) (hP : ∀ w p, P w → P (w.Write p).1)
    (c : Codec μ) (id : GoString) (n : Nat) (w : WRaw) (hw : P w) :
    P (createTail c id n w).1 := by
  unfold createTail
  by_cases hs : w.seekable = true
  · simp only [hs, if_true]
    exact andThen_inv P _ _ (hP _ _ hw) fun w1 h1 => andThen_inv P _ _ (hP _ _ h1) fun _ h2 => h2
  · simp only [hs]
    exact hw

theorem createBody_inv {μ : Type} (P : WRaw → Prop) (hP : ∀ w p, P w → P (w.Write p).1)
    (c : Codec μ) (id : GoString) (m : Meta μ) (w : WRaw) (hw : P w) :
    P (createBody c id m w).1 := by
  unfold createBody
  refine andThen_inv P _ _ (hP _ _ hw) fun w1 h1 => andThen_inv P _ _ (hP _ _ h1) fun w2 h2 => ?_
  by_cases hm : (m.nonNil && !isNil m) = true
  · simp only [hm, if_true]
    cases c.marshal m with
    | error e => exact h2
    | ok d =>
      exact andThen_inv P _ _ (hP _ _ h2) fun _ h3 => andThen_inv P _ _ (hP _ _ h3) fun _ h4 =>
        andThen_inv P _ _ (hP _ _ h4) fun _ h5 => createTail_inv P hP c id _ _ h5
  · simp only [hm]
    exact andThen_inv P _ _ (hP _ _ h2) fun _ h3 => andThen_inv P _ _ (hP _ _ h3) fun _ h4 =>
      createTail_inv P hP c id _ _ h4

theorem createBody_closes {μ : Type} (c : Codec μ) (id : GoString) (m : Meta μ) (w : WRaw) :
    (createBody c id m w).1.closes = w.closes :=
  createBody_inv (fun x => x.closes = w.closes)
    (fun x p hx => (Write_closes x p).trans hx) c id m w rfl

theorem createBody_seekable {μ : Type} (c : Codec μ) (id : GoString) (m : Meta μ) (w : WRaw) :
    (createBody c id m w).1.seekable = w.seekable :=
  createBody_inv (fun x => x.seekable = w.seekable)
    (fun x p hx => (Write_seekable x p).trans hx) c id m w rfl

theorem createTail_written {μ : Type} {c : Codec μ} {id : GoString} {n : Nat} {w0 w : WRaw}
    {v : Option WFile} (h : createTail c id n w0 = (w, v, none)) :
    w.written = w0.written ++ (if w0.seekable then List.replicate 16 0 else []) ∧
    v = some { id := id, metadataLength := n, dataHash := [], seeker := w0.seekable } := by
  unfold createTail at h
  by_cases hs : w0.seekable = true
  · simp only [hs, if_true] at h ⊢
    obtain ⟨w1, h1, h⟩ := andThen_done h
    obtain ⟨w2, h2, h⟩ := andThen_done h
    simp only [Prod.mk.injEq] at h
    obtain ⟨rfl, rfl, -⟩ := h
    have e1 := Write_ok h1
    have e2 := Write_ok h2
    rw [e2, e1, encode_zero]
    simp [List.append_assoc]
  · have hf : w0.seekable = false := by simpa using hs
    rw [hf] at h ⊢
    simp only [Bool.false_eq_true, if_false, Prod.mk.injEq] at h
    obtain ⟨rfl, rfl, -⟩ := h
    simp

theorem createBody_written {μ : Type} {c : Codec μ} {id : GoString} {m : Meta μ} {d : List Byte}
    {w0 w : WRaw} {v : Option WFile} (hm : (m.nonNil && !isNil m) = true)
    (hd : c.marshal m = .ok d) (h : createBody c id m w0 = (w, v, none)) :
    w.written = w0.written ++ specHeader c d w0.seekable ∧
    v = some { id := id, metadataLength := d.length % 2 ^ 64, dataHash := [],
               seeker := w0.seekable } := by
  unfold createBody at h
  obtain ⟨w1, h1, h⟩ := andThen_done h
  obtain ⟨w2, h2, h⟩ := andThen_done h
  simp only [hm, if_true, hd] at h
  obtain ⟨w3, h3, h⟩ := andThen_done h
  obtain ⟨w4, h4, h⟩ := andThen_done h
  obtain ⟨w5, h5, h⟩ := andThen_done h
  obtain ⟨e6, hv⟩ := createTail_written h
  have s1 := congrArg Prod.fst h1 ▸ Write_seekable w0 _
  have s2 := congrArg Prod.fst h2 ▸ Write_seekable w1 _
  have s3 := congrArg Prod.fst h3 ▸ Write_seekable w2 _
  have s4 := congrArg Prod.fst h4 ▸ Write_seekable w3 _
  have s5 := congrArg Prod.fst h5 ▸ Write_seekable w4 _
  simp only at s1 s2 s3 s4 s5
  have hs : w5.seekable = w0.seekable := by rw [s5, s4, s3, s2, s1]
  refine ⟨?_, by rw [hv, hs]⟩
  rw [e6, Write_ok h5, Write_ok h4, Write_ok h3, Write_ok h2, Write_ok h1, hs]
  simp [specHeader, List.append_assoc]


theorem createBody_written_nil {μ : Type} {c : Codec μ} {id : GoString} {m : Meta μ}
    {w0 w : WRaw} {v : Option WFile} (hm : (m.nonNil && !isNil m) = false)
    (h : createBody c id m w0 = (w, v, none)) :
    w.written = w0.written ++ emptyHeader w0.seekable ∧
    v = some { id := id, metadataLength := 0, dataHash := [], seeker := w0.seekable } := by
  unfold createBody at h
  obtain ⟨w1, h1, h⟩ := andThen_done h
  obtain ⟨w2, h2, h⟩ := andThen_done h
  simp only [hm, Bool.false_eq_true, if_false] at h
  obtain ⟨w3, h3, h⟩ := andThen_done h
  obtain ⟨w4, h4, h⟩ := andThen_done h
  obtain ⟨e6, hv⟩ := createTail_written h
  have s1 := congrArg Prod.fst h1 ▸ Write_seekable w0 _
  have s2 := congrArg Prod.fst h2 ▸ Write_seekable w1 _
  have s3 := congrArg Prod.fst h3 ▸ Write_seekable w2 _
  have s4 := congrArg Prod.fst h4 ▸ Write_seekable w3 _
  simp only at s1 s2 s3 s4
  have hs : w4.seekable = w0.seekable := by rw [s4, s3, s2, s1]
  refine ⟨?_, by rw [hv, hs]⟩
  rw [e6, Write_ok h4, Write_ok h3, Write_ok h2, Write_ok h1, hs, encode_version, encode_zero]
  simp [emptyHeader, List.append_assoc]

/-! ## Header reading -/

theorem bread_append {μ : Type} (c : Codec μ) (r : RRaw) (width : Nat) (a b : List Byte)
    (hr : r.rest = a ++ b) (hw : a.length = width) :
    bread c r width =
      ({ r with reads := r.reads ++ [width], rest := b }, .ok (decode c.order a)) := by
  subst hw
  simp [bread, hr]

theorem Read_append (r : RRaw) (n : Nat) (a b : List Byte) (hr : r.rest = a ++ b)
    (hw : a.length = n) (hn : 0 < n) (hf : r.fills n) :
    r.Read n = ({ r with reads := r.reads ++ [n], rest := b }, a, none) := by
  subst hw
  have ha : a ≠ [] := by
    intro h; simp [h] at hn
  have ht : r.transfer a.length = a.length := by
    unfold RRaw.transfer
    unfold RRaw.fills at hf
    cases hc : r.chunk with
    | none => simp [hr]
    | some k => simp only [hc] at hf; simp [hr]; omega
  unfold RRaw.Read
  simp [ht, hr, ha, Nat.pos_iff_ne_zero.mp hn]


theorem int64_small (n : Nat) (h : n < 2 ^ 63) : int64 n = (n : Int) := by
  have h2 : n % 2 ^ 64 = n := Nat.mod_eq_of_lt (by omega)
  unfold int64
  rw [h2, if_pos h]

theorem openTail_ok {μ : Type} (c : Codec μ) (rfile : RFile) (r : RRaw) (dl dh rest : List Byte)
    (hr : r.rest = dl ++ (dh ++ rest)) (hl : dl.length = 8) (hh : dh.length = 8) :
    openTail c rfile r =
      ({ r with reads := r.reads ++ [8, 8], rest := rest },
       .done (some { rfile with dataLength := decode c.order dl, dataHash := decode c.order dh },
         none)) := by
  unfold openTail
  rw [bread_append c r 8 dl _ hr hl]
  simp only [readThen]
  rw [bread_append c _ 8 dh rest rfl hh]
  simp

theorem openBody_ok {μ : Type} (c : Codec μ) (id : GoString) (r : RRaw) (n h : Nat)
    (fl d dl dh rest : List Byte)
    (hr : r.rest = encode c.order 1 1 ++ (fl ++ (encode c.order 8 n ++ (encode c.order 8 h ++
      (d ++ (dl ++ (dh ++ rest)))))))
    (hfl : fl.length = 8) (hl : dl.length = 8) (hh : dh.length = 8)
    (hn : n = d.length) (hlen : d.length < 2 ^ 63) (hmax : d.length ≤ c.maxAlloc)
    (hf : r.fills d.length) :
    (openBody c id r).2 =
        .done (some { id := id, metadataHash := h % 2 ^ 64, metadataData := d,
                      dataLength := decode c.order dl, dataHash := decode c.order dh },
          none) ∧
      (openBody c id r).1.closes = r.closes ∧ (openBody c id r).1.rest = rest := by
  subst hn
  unfold openBody
  rw [bread_append c r 1 _ _ hr (encode_length _ _ _)]
  simp only [readThen, decode_encode]
  rw [if_neg (by decide)]
  rw [bread_append c _ 8 fl _ rfl hfl]
  simp only
  rw [bread_append c _ 8 _ _ rfl (encode_length _ _ _)]
  simp only
  rw [bread_append c _ 8 _ _ rfl (encode_length _ _ _)]
  simp only [decode_encode]
  have h8 : d.length % 256 ^ 8 = d.length := Nat.mod_eq_of_lt (by omega)
  rw [h8]
  by_cases hpos : d.length > 0
  · rw [if_pos hpos, int64_small _ hlen]
    simp only [makeBytes]
    rw [if_neg (by omega)]
    simp only [Int.toNat_ofNat, List.length_replicate]
    rw [Read_append _ d.length d _ rfl rfl hpos (by simpa [RRaw.fills] using hf)]
    simp only
    rw [openTail_ok c _ _ dl dh rest rfl hl hh]
    simp [RFile.fresh]
  · rw [if_neg hpos]
    have hd : d = [] := by
      cases d with
      | nil => rfl
      | cons a t => simp at hpos
    subst hd
    rw [openTail_ok c _ _ dl dh rest rfl hl hh]
    simp [RFile.fresh]

/-! ## `CreateId` and `Open` as a whole -/

theorem CreateId_done {μ : Type} {s : Store} {c : Codec μ} {id : GoString} {m : Meta μ}
    {w0 w : WRaw} {v : Option WFile} (hc : s.drv.Create id = .ok w0)
    (hres : (s.CreateId c id m).result = .done (v, none))
    (hraw : (s.CreateId c id m).raw = some w) :
    createBody c id m w0 = (w, v, none) := by
  unfold Store.CreateId at hres hraw
  simp only [hc] at hres hraw
  rcases hb : createBody c id m w0 with ⟨w1, v1, _ | e⟩
  · simp only [hb, Run.done.injEq, Prod.mk.injEq, and_true, Option.some.injEq] at hres hraw
    rw [hres, hraw]
  · simp [hb] at hres

theorem Open_of_body {μ : Type} {s : Store} {c : Codec μ} {id : GoString} {r : RRaw}
    {rf : RFile} (ho : s.drv.Open id = .ok r)
    (hb : (openBody c id r).2 = .done (some rf, none)) :
    (s.Open c id).result = .done (some rf, none) ∧ (s.Open c id).raw = some (openBody c id r).1 := by
  unfold Store.Open
  simp only [ho]
  rcases hq : openBody c id r with ⟨r1, res⟩
  rw [hq] at hb
  simp only at hb
  subst hb
  exact ⟨rfl, rfl⟩

/-- C2 (header round trip): when `CreateId` succeeds for a non-nil metadata
value serialized as `d` on a fresh seekable handle, `Open` on the bytes it
wrote, read by a handle whose reads fill the buffer, returns a read handle with
metadata bytes `d` and metadata hash the 64-bit hash of `d`. -/
theorem header_round_trip {μ : Type} (s : Store) (c : Codec μ) (id : GoString) (m : Meta μ)
    (d : List Byte) (w0 w : WRaw) (wf : WFile) (r : RRaw)
    (hm : m.nonNil = true ∧ isNil m = false)
    (hd : c.marshal m = .ok d) (hlen : d.length < 2 ^ 63)
    (hc : s.drv.Create id = .ok w0) (h0 : w0.written = []) (hs : w0.seekable = true)
    (hres : (s.CreateId c id m).result = .done (some wf, none))
    (hraw : (s.CreateId c id m).raw = some w)
    (ho : s.drv.Open id = .ok r) (hr : r.rest = w.written) (hf : r.fills d.length) :
    ∃ rf : RFile, (s.Open c id).result = .done (some rf, none) ∧
      rf.metadataData = d ∧ rf.metadataHash = c.sum64 d := by
  have hm2 : (m.nonNil && !isNil m) = true := by simp [hm.1, hm.2]
  have hw := (createBody_written hm2 hd (CreateId_done hc hres hraw)).1
  rw [h0, hs, List.nil_append] at hw
  have hrest : r.rest = encode c.order 1 1 ++ (encode c.order 8 0 ++ (encode c.order 8 d.length ++
      (encode c.order 8 (c.sum64 d) ++ (d ++ (List.replicate 8 0 ++ (List.replicate 8 0 ++ [])))))) := by
    rw [hr, hw]
    simp [specHeader, List.append_assoc]
  obtain ⟨hb, -, -⟩ := openBody_ok c id r d.length (c.sum64 d) _ d _ _ [] hrest
    (encode_length _ _ _) (by simp) (by simp) rfl hlen (c.marshal_fits m d hd) hf
  refine ⟨_, (Open_of_body ho hb).1, rfl, ?_⟩
  simp [Codec.sum64]

theorem header_round_trip_witness :
    ∃ rf : RFile,
      (Store.Open ⟨fileDriver (freshW true none)
        (freshR [1, 0, 0, 0, 0, 0, 0, 0, 0, 0, 0, 0, 0, 0, 0, 0, 3, 191, 107, 202, 24, 93, 110, 65,
          25, 7, 8, 9, 0, 0, 0, 0, 0, 0, 0, 0, 0, 0, 0, 0, 0, 0, 0, 0] none)⟩
        demoCodec "ab12".toList).result = .done (some rf, none) ∧
      rf.metadataData = [7, 8, 9] ∧ rf.metadataHash = demoCodec.sum64 [7, 8, 9] :=
  header_round_trip
    ⟨fileDriver (freshW true none)
      (freshR [1, 0, 0, 0, 0, 0, 0, 0, 0, 0, 0, 0, 0, 0, 0, 0, 3, 191, 107, 202, 24, 93, 110, 65,
        25, 7, 8, 9, 0, 0, 0, 0, 0, 0, 0, 0, 0, 0, 0, 0, 0, 0, 0, 0] none)⟩
    demoCodec "ab12".toList (.value [7, 8, 9]) [7, 8, 9] (freshW true none)
    { written := [1, 0, 0, 0, 0, 0, 0, 0, 0, 0, 0, 0, 0, 0, 0, 0, 3, 191, 107, 202, 24, 93, 110,
        65, 25, 7, 8, 9, 0, 0, 0, 0, 0, 0, 0, 0, 0, 0, 0, 0, 0, 0, 0, 0],
      room := none, seekable := true, closes := 0 }
    { id := "ab12".toList, metadataLength := 3, dataHash := [], seeker := true }
    (freshR [1, 0, 0, 0, 0, 0, 0, 0, 0, 0, 0, 0, 0, 0, 0, 0, 3, 191, 107, 202, 24, 93, 110, 65,
      25, 7, 8, 9, 0, 0, 0, 0, 0, 0, 0, 0, 0, 0, 0, 0, 0, 0, 0, 0] none)
    ⟨rfl, rfl⟩ rfl (by decide) rfl rfl rfl (by decide) (by decide) rfl rfl (by decide)


/-! ## Filesystem paths -/

theorem path_eq_of_stem (f : fsDriver) (id : GoString) (h : 2 ≤ (stem id).length) :
    f.path id = .done (Join [f.dir, (stem id).drop ((stem id).length - 2),
      (stem id).take ((stem id).length - 2) ++ Ext id]) := by
  have hs : ¬ (((stem id).length : Int) - 2 < 0) := by omega
  have ht : (((stem id).length : Int) - 2).toNat = (stem id).length - 2 := by omega
  have e : (if Ext id ≠ [] then id.take (id.length - (Ext id).length) else id) = stem id := rfl
  simp only [fsDriver.path, e, if_neg hs, ht]

/-- C1 (path sharding): for an id whose stem has at least two bytes, `path` is
`Join` of the base directory, the last two bytes of the stem, and the leading
bytes of the stem followed by the extension; so `abc123XY` lies at
`dir/XY/abc123` and `abc123XY.png` at `dir/XY/abc123.png`. -/
theorem path_sharding (f : fsDriver) :
    (∀ id : GoString, 2 ≤ (stem id).length →
      f.path id = .done (Join [f.dir, (stem id).drop ((stem id).length - 2),
        (stem id).take ((stem id).length - 2) ++ Ext id])) ∧
    f.path "abc123XY".toList = .done (Join [f.dir, "XY".toList, "abc123".toList]) ∧
    f.path "abc123XY.png".toList = .done (Join [f.dir, "XY".toList, "abc123.png".toList]) :=
  ⟨path_eq_of_stem f, path_eq_of_stem f _ (by decide), path_eq_of_stem f _ (by decide)⟩

theorem path_sharding_witness :
    2 ≤ (stem "abc123XY.png".toList).length ∧
    fsDriver.path ⟨"base".toList, "base/tmp".toList⟩ "abc123XY.png".toList
      = .done "base/XY/abc123.png".toList ∧
    fsDriver.path ⟨"base".toList, "base/tmp".toList⟩ "abc123XY".toList
      = .done "base/XY/abc123".toList :=
  ⟨by decide,
   ((path_sharding ⟨"base".toList, "base/tmp".toList⟩).1 "abc123XY.png".toList (by decide)).trans
     (by decide),
   ((path_sharding ⟨"base".toList, "base/tmp".toList⟩).1 "abc123XY".toList (by decide)).trans
     (by decide)⟩

/-! ## Header layout -/

/-- C3 (header layout): a successful `CreateId` for metadata serialized as `d`
writes the version byte 1, eight zero bytes of flags, the metadata length and
the metadata hash in eight bytes each, the bytes of `d`, and sixteen zero bytes
exactly when the handle is seekable: 41 + len(d) bytes when seekable and
25 + len(d) bytes otherwise. -/
theorem header_layout {μ : Type} (s : Store) (c : Codec μ) (id : GoString) (m : Meta μ)
    (d : List Byte) (w0 w : WRaw) (wf : WFile)
    (hm : m.nonNil = true ∧ isNil m = false) (hd : c.marshal m = .ok d)
    (hc : s.drv.Create id = .ok w0)
    (hres : (s.CreateId c id m).result = .done (some wf, none))
    (hraw : (s.CreateId c id m).raw = some w) :
    w.written = w0.written ++ ([1] ++ List.replicate 8 0 ++ encode c.order 8 d.length ++
      encode c.order 8 (c.sum64 d) ++ d ++ (if w0.seekable then List.replicate 16 0 else [])) ∧
    (encode c.order 8 d.length).length = 8 ∧
    decode c.order (encode c.order 8 d.length) = d.length % 2 ^ 64 ∧
    (encode c.order 8 (c.sum64 d)).length = 8 ∧
    decode c.order (encode c.order 8 (c.sum64 d)) = c.sum64 d ∧
    w.written.length = w0.written.length + (if w0.seekable then 41 else 25) + d.length := by
  have hm2 : (m.nonNil && !isNil m) = true := by simp [hm.1, hm.2]
  have hw := (createBody_written hm2 hd (CreateId_done hc hres hraw)).1
  have hlay : w.written = w0.written ++ ([1] ++ List.replicate 8 0 ++ encode c.order 8 d.length ++
      encode c.order 8 (c.sum64 d) ++ d ++ (if w0.seekable then List.replicate 16 0 else [])) := by
    rw [hw, specHeader, encode_version, encode_zero]
  refine ⟨hlay, encode_length _ _ _, decode_encode _ _ _, encode_length _ _ _, ?_, ?_⟩
  · rw [decode_encode]
    simp [Codec.sum64]
  · rw [hlay]
    cases w0.seekable <;> simp [encode_length] <;> omega

theorem header_layout_witness :
    (Store.CreateId ⟨fileDriver (freshW false none) (freshR [] none)⟩ demoCodec "ab12".toList
      (.value [7, 8, 9])).raw
      = some { written := [1, 0, 0, 0, 0, 0, 0, 0, 0, 0, 0, 0, 0, 0, 0, 0, 3, 191, 107, 202, 24,
                 93, 110, 65, 25, 7, 8, 9],
               room := none, seekable := false, closes := 0 } ∧
    ([1, 0, 0, 0, 0, 0, 0, 0, 0, 0, 0, 0, 0, 0, 0, 0, 3, 191, 107, 202, 24, 93, 110, 65, 25, 7,
      8, 9] : List Byte).length = 0 + 25 + 3 :=
  ⟨by decide,
   (header_layout ⟨fileDriver (freshW false none) (freshR [] none)⟩ demoCodec "ab12".toList
    (.value [7, 8, 9]) [7, 8, 9] (freshW false none)
    { written := [1, 0, 0, 0, 0, 0, 0, 0, 0, 0, 0, 0, 0, 0, 0, 0, 3, 191, 107, 202, 24, 93, 110,
        65, 25, 7, 8, 9],
      room := none, seekable := false, closes := 0 }
    { id := "ab12".toList, metadataLength := 3, dataHash := [], seeker := false }
    ⟨rfl, rfl⟩ rfl rfl (by decide) (by decide)).2.2.2.2.2⟩


/-! ## Cleanup in `Open` -/

theorem bread_closes {μ : Type} (c : Codec μ) (r : RRaw) (w : Nat) :
    (bread c r w).1.closes = r.closes := by
  unfold bread
  by_cases h : w ≤ r.rest.length <;> simp [h]

theorem Read_closes (r : RRaw) (n : Nat) : (r.Read n).1.closes = r.closes := by
  unfold RRaw.Read
  by_cases h : n = 0
  · simp [h]
  · by_cases h2 : r.rest = [] <;> simp [h, h2]

theorem readThen_kept (n : Nat) (r : RRaw × Except Err Nat) (keep : Option RFile)
    (k : RRaw → Nat → RRaw × Run (Option RFile × Option Err))
    (hr : r.1.closes = n) (hk : ∀ r1 x, r1.closes = n → Kept n (k r1 x)) :
    Kept n (readThen r keep k) := by
  rcases r with ⟨r1, e | x⟩
  · exact ⟨hr, by simp [readThen]⟩
  · exact hk r1 x hr

theorem openTail_kept {μ : Type} (c : Codec μ) (rfile : RFile) (r : RRaw) :
    Kept r.closes (openTail c rfile r) := by
  unfold openTail
  refine readThen_kept _ _ _ _ (bread_closes c r 8) fun r1 x h1 =>
    readThen_kept _ _ _ _ ((bread_closes c r1 8).trans h1) fun r2 y h2 => ⟨h2, ?_⟩
  intro v hv
  simp only [Run.done.injEq, Prod.mk.injEq, and_true] at hv
  rw [← hv]
  simp

theorem openBody_kept {μ : Type} (c : Codec μ) (id : GoString) (r : RRaw) :
    Kept r.closes (openBody c id r) := by
  unfold openBody
  refine readThen_kept _ _ _ _ (bread_closes c r 1) fun r1 version h1 => ?_
  by_cases hv : version ≠ 1
  · rw [if_pos hv]
    exact ⟨h1, by simp⟩
  · rw [if_neg hv]
    refine readThen_kept _ _ _ _ ((bread_closes c r1 8).trans h1) fun r2 _ h2 =>
      readThen_kept _ _ _ _ ((bread_closes c r2 8).trans h2) fun r3 len h3 =>
      readThen_kept _ _ _ _ ((bread_closes c r3 8).trans h3) fun r4 hash h4 => ?_
    by_cases hl : len > 0
    · simp only [if_pos hl]
      cases makeBytes c.maxAlloc (int64 len) with
      | panic msg => exact ⟨h4, by simp⟩
      | done buf =>
        simp only
        have h5 := Read_closes r4 buf.length
        rcases hR : r4.Read buf.length with ⟨r5, got, _ | e⟩
        · rw [hR] at h5
          simp only at h5 ⊢
          have := openTail_kept c
            { RFile.fresh id with metadataHash := hash,
                                  metadataData := got ++ buf.drop got.length } r5
          rw [h5, h4] at this
          exact this
        · rw [hR] at h5
          exact ⟨h5.trans h4, by simp⟩
    · simp only [if_neg hl]
      have := openTail_kept c { RFile.fresh id with metadataHash := hash } r4
      rw [h4] at this
      exact this

theorem bread_short {μ : Type} (c : Codec μ) (r : RRaw) (width : Nat)
    (h : r.rest.length < width) :
    ∃ e, bread c r width = ({ r with reads := r.reads ++ [width], rest := [] }, .error e) := by
  unfold bread
  rw [if_neg (by omega)]
  exact ⟨_, rfl⟩

theorem Open_failed_of_body {μ : Type} {s : Store} {c : Codec μ} {id : GoString} {r : RRaw}
    (ho : s.drv.Open id = .ok r) (hb : ∃ v e, (openBody c id r).2 = .done (v, some e)) :
    OpenFailed s c id r := by
  obtain ⟨v, e, hb⟩ := hb
  have hk := (openBody_kept c id r).1
  unfold OpenFailed Store.Open
  simp only [ho]
  rcases hq : openBody c id r with ⟨r1, res⟩
  rw [hq] at hb hk
  simp only at hb hk
  subst hb
  refine ⟨e, r1.Close, rfl, rfl, ?_⟩
  simp only [RRaw.Close]
  exact congrArg (· + 1) hk

theorem openTail_short {μ : Type} (c : Codec μ) (rfile : RFile) (r : RRaw)
    (h : r.rest.length < 8) : ∃ v e, (openTail c rfile r).2 = .done (v, some e) := by
  obtain ⟨e, he⟩ := bread_short c r 8 h
  unfold openTail
  rw [he]
  exact ⟨_, e, rfl⟩

theorem openTail_short_hash {μ : Type} (c : Codec μ) (rfile : RFile) (r : RRaw)
    (dl t : List Byte) (hr : r.rest = dl ++ t) (hl : dl.length = 8) (h : t.length < 8) :
    ∃ v e, (openTail c rfile r).2 = .done (v, some e) := by
  unfold openTail
  rw [bread_append c r 8 dl t hr hl]
  simp only [readThen]
  obtain ⟨e, he⟩ := bread_short c { r with reads := r.reads ++ [8], rest := t } 8 h
  rw [he]
  exact ⟨_, e, rfl⟩

theorem openBody_to_meta {μ : Type} (c : Codec μ) (id : GoString) (r : RRaw)
    (fl ml mh t : List Byte) (hr : r.rest = 1 :: (fl ++ (ml ++ (mh ++ t))))
    (hfl : fl.length = 8) (hml : ml.length = 8) (hmh : mh.length = 8) :
    ∃ r4 : RRaw, r4.rest = t ∧ r4.chunk = r.chunk ∧
      openBody c id r = openMeta c id (decode c.order ml) (decode c.order mh) r4 := by
  refine ⟨{ r with reads := r.reads ++ [1] ++ [8] ++ [8] ++ [8], rest := t }, rfl, rfl, ?_⟩
  · unfold openBody openMeta
    rw [bread_append c r 1 [1] _ hr rfl]
    simp only [readThen, decode_single]
    rw [if_neg (by decide)]
    rw [bread_append c _ 8 fl _ rfl hfl]
    simp only
    rw [bread_append c _ 8 ml _ rfl hml]
    simp only
    rw [bread_append c _ 8 mh _ rfl hmh]

theorem openMeta_data {μ : Type} (c : Codec μ) (id : GoString) (h : Nat) (r : RRaw)
    (md t : List Byte) (hr : r.rest = md ++ t) (hlen : md.length < 2 ^ 63)
    (hmax : md.length ≤ c.maxAlloc) (hf : r.fills md.length) :
    ∃ r5 : RRaw, r5.rest = t ∧
      openMeta c id md.length h r =
        openTail c { RFile.fresh id with metadataHash := h, metadataData := md } r5 := by
  unfold openMeta
  by_cases hpos : md.length > 0
  · simp only [if_pos hpos, int64_small _ hlen, makeBytes]
    rw [if_neg (by omega)]
    simp only [Int.toNat_ofNat, List.length_replicate]
    rw [Read_append r md.length md t hr rfl hpos hf]
    refine ⟨{ r with reads := r.reads ++ [md.length], rest := t }, rfl, ?_⟩
    simp
  · have hd : md = [] := List.length_eq_zero.mp (by omega)
    subst hd
    simp only [if_neg hpos]
    exact ⟨r, by simpa using hr, rfl⟩

theorem openMeta_no_data {μ : Type} (c : Codec μ) (id : GoString) (n h : Nat) (r : RRaw)
    (hr : r.rest = []) (hpos : 0 < n) (hlen : n < 2 ^ 63) (hmax : n ≤ c.maxAlloc) :
    ∃ v e, (openMeta c id n h r).2 = .done (v, some e) := by
  unfold openMeta
  simp only [if_pos hpos, int64_small _ hlen, makeBytes]
  rw [if_neg (by omega)]
  simp only [Int.toNat_ofNat, List.length_replicate]
  have hR : r.Read n = ({ r with reads := r.reads ++ [n] }, [], some "EOF") := by
    unfold RRaw.Read
    rw [if_neg (by omega), if_pos hr]
  rw [hR]
  exact ⟨_, _, rfl⟩

/-- C5 (cleanup in `Open`): once the driver has handed out the raw handle,
every return of `Open` with an error carries a nil read handle and has closed
the raw handle exactly once, and every return without an error carries a read
handle and has not closed the raw handle. `Open` fails in this way when the
read of the version, the flags, the metadata length, the metadata hash, the
metadata bytes, the data length or the data hash fails, and when the version
is not 1. -/
theorem open_failure_closes {μ : Type} (s : Store) (c : Codec μ) (id : GoString) (r : RRaw)
    (ho : s.drv.Open id = .ok r) :
    (∀ v e, (s.Open c id).result = .done (v, some e) →
      v = none ∧ ∃ r1, (s.Open c id).raw = some r1 ∧ r1.closes = r.closes + 1) ∧
    (∀ v, (s.Open c id).result = .done (v, none) →
      v ≠ none ∧ ∃ r1, (s.Open c id).raw = some r1 ∧ r1.closes = r.closes) ∧
    (r.rest = [] → OpenFailed s c id r) ∧
    (∀ b t, r.rest = b :: t → b ≠ 1 → OpenFailed s c id r) ∧
    (∀ t, r.rest = 1 :: t → t.length < 8 → OpenFailed s c id r) ∧
    (∀ fl t, r.rest = 1 :: (fl ++ t) → fl.length = 8 → t.length < 8 → OpenFailed s c id r) ∧
    (∀ fl ml t, r.rest = 1 :: (fl ++ (ml ++ t)) → fl.length = 8 → ml.length = 8 →
      t.length < 8 → OpenFailed s c id r) ∧
    (∀ fl ml mh, r.rest = 1 :: (fl ++ (ml ++ mh)) → fl.length = 8 → ml.length = 8 →
      mh.length = 8 → 0 < decode c.order ml → decode c.order ml < 2 ^ 63 →
      decode c.order ml ≤ c.maxAlloc → OpenFailed s c id r) ∧
    (∀ fl ml mh md t, r.rest = 1 :: (fl ++ (ml ++ (mh ++ (md ++ t)))) → fl.length = 8 →
      ml.length = 8 → mh.length = 8 → decode c.order ml = md.length → md.length < 2 ^ 63 →
      md.length ≤ c.maxAlloc → r.fills md.length → t.length < 8 → OpenFailed s c id r) ∧
    (∀ fl ml mh md dl t, r.rest = 1 :: (fl ++ (ml ++ (mh ++ (md ++ (dl ++ t))))) →
      fl.length = 8 → ml.length = 8 → mh.length = 8 → decode c.order ml = md.length →
      md.length < 2 ^ 63 → md.length ≤ c.maxAlloc → r.fills md.length → dl.length = 8 →
      t.length < 8 → OpenFailed s c id r) := by
  refine ⟨?_, ?_, ?_, ?_, ?_, ?_, ?_, ?_, ?_, ?_⟩
  · have hk := openBody_kept c id r
    unfold Store.Open
    simp only [ho]
    rcases hb : openBody c id r with ⟨r1, ⟨v1, _ | e1⟩ | msg⟩
    · simp
    · rw [hb] at hk
      intro v e hv
      simp only [Run.done.injEq, Prod.mk.injEq] at hv
      refine ⟨hv.1.symm, r1.Close, rfl, ?_⟩
      simp only [RRaw.Close]
      exact congrArg (· + 1) hk.1
    · simp
  · have hk := openBody_kept c id r
    unfold Store.Open
    simp only [ho]
    rcases hb : openBody c id r with ⟨r1, ⟨v1, _ | e1⟩ | msg⟩
    · rw [hb] at hk
      intro v hv
      simp only [Run.done.injEq, Prod.mk.injEq, and_true] at hv
      subst hv
      exact ⟨hk.2 v1 rfl, r1, rfl, hk.1⟩
    · simp
    · simp
  · intro hr
    refine Open_failed_of_body ho ?_
    obtain ⟨e, he⟩ := bread_short c r 1 (by rw [hr]; decide)
    unfold openBody
    rw [he]
    exact ⟨_, e, rfl⟩
  · intro b t hr hb
    refine Open_failed_of_body ho ?_
    have hv : b.val ≠ 1 := fun h => hb (Fin.ext h)
    unfold openBody
    rw [bread_append c r 1 [b] t hr rfl]
    simp only [readThen, decode_single, if_pos hv]
    exact ⟨_, _, rfl⟩
  · intro t hr ht
    refine Open_failed_of_body ho ?_
    unfold openBody
    rw [bread_append c r 1 [1] t hr rfl]
    simp only [readThen, decode_single]
    rw [if_neg (by decide)]
    obtain ⟨e, he⟩ := bread_short c { r with reads := r.reads ++ [1], rest := t } 8 ht
    rw [he]
    exact ⟨_, e, rfl⟩
  · intro fl t hr hfl ht
    refine Open_failed_of_body ho ?_
    unfold openBody
    rw [bread_append c r 1 [1] _ hr rfl]
    simp only [readThen, decode_single]
    rw [if_neg (by decide), bread_append c _ 8 fl t rfl hfl]
    simp only
    obtain ⟨e, he⟩ := bread_short c
      { r with reads := r.reads ++ [1] ++ [8], rest := t } 8 ht
    rw [he]
    exact ⟨_, e, rfl⟩
  · intro fl ml t hr hfl hml ht
    refine Open_failed_of_body ho ?_
    unfold openBody
    rw [bread_append c r 1 [1] _ hr rfl]
    simp only [readThen, decode_single]
    rw [if_neg (by decide), bread_append c _ 8 fl _ rfl hfl]
    simp only
    rw [bread_append c _ 8 ml t rfl hml]
    simp only
    obtain ⟨e, he⟩ := bread_short c
      { r with reads := r.reads ++ [1] ++ [8] ++ [8], rest := t } 8 ht
    rw [he]
    exact ⟨_, e, rfl⟩
  · intro fl ml mh hr hfl hml hmh hpos hlen hmax
    refine Open_failed_of_body ho ?_
    have hr2 : r.rest = 1 :: (fl ++ (ml ++ (mh ++ []))) := by rw [hr, List.append_nil]
    obtain ⟨r4, h4, -, hb⟩ := openBody_to_meta c id r fl ml mh [] hr2 hfl hml hmh
    rw [hb]
    exact openMeta_no_data c id _ _ r4 h4 hpos hlen hmax
  · intro fl ml mh md t hr hfl hml hmh hn hlen hmax hf ht
    refine Open_failed_of_body ho ?_
    obtain ⟨r4, h4, hc4, hb⟩ := openBody_to_meta c id r fl ml mh (md ++ t) hr hfl hml hmh
    have hf4 : r4.fills md.length := by
      unfold RRaw.fills at hf ⊢
      rw [hc4]
      exact hf
    obtain ⟨r5, h5, hm⟩ := openMeta_data c id (decode c.order mh) r4 md t h4 hlen hmax hf4
    rw [hb, hn, hm]
    exact openTail_short c _ r5 (by rw [h5]; exact ht)
  · intro fl ml mh md dl t hr hfl hml hmh hn hlen hmax hf hdl ht
    refine Open_failed_of_body ho ?_
    obtain ⟨r4, h4, hc4, hb⟩ :=
      openBody_to_meta c id r fl ml mh (md ++ (dl ++ t)) hr hfl hml hmh
    have hf4 : r4.fills md.length := by
      unfold RRaw.fills at hf ⊢
      rw [hc4]
      exact hf
    obtain ⟨r5, h5, hm⟩ :=
      openMeta_data c id (decode c.order mh) r4 md (dl ++ t) h4 hlen hmax hf4
    rw [hb, hn, hm]
    exact openTail_short_hash c _ r5 dl t h5 hdl ht

theorem open_failure_closes_witness :
    ((Store.Open ⟨fileDriver (freshW true none) (freshR ((1 : Byte) :: List.replicate 20 0) none)⟩
        demoCodec "ab12".toList).result = .done (none, some "unexpected EOF") ∧
     (none : Option RFile) = none ∧
     ∃ r1, (Store.Open ⟨fileDriver (freshW true none)
        (freshR ((1 : Byte) :: List.replicate 20 0) none)⟩ demoCodec "ab12".toList).raw = some r1 ∧
      r1.closes = 0 + 1) ∧
    OpenFailed ⟨fileDriver (freshW true none) (freshR ((1 : Byte) :: List.replicate 20 0) none)⟩
      demoCodec "ab12".toList (freshR ((1 : Byte) :: List.replicate 20 0) none) :=
  ⟨⟨by decide,
    (open_failure_closes ⟨fileDriver (freshW true none)
      (freshR ((1 : Byte) :: List.replicate 20 0) none)⟩ demoCodec "ab12".toList
      (freshR ((1 : Byte) :: List.replicate 20 0) none) rfl).1 none "unexpected EOF"
      (by decide)⟩,
   (open_failure_closes ⟨fileDriver (freshW true none)
      (freshR ((1 : Byte) :: List.replicate 20 0) none)⟩ demoCodec "ab12".toList
      (freshR ((1 : Byte) :: List.replicate 20 0) none) rfl).2.2.2.2.2.2.1
      (List.replicate 8 0) (List.replicate 8 0) (List.replicate 4 0) (by decide) (by decide)
      (by decide) (by decide)⟩

/-- C4 (version gate): when the first byte of the stream is not 1, `Open`
returns a nil read handle and the version error, having read the one version
byte and nothing after it, and having closed the raw handle. -/
theorem version_gate {μ : Type} (s : Store) (c : Codec μ) (id : GoString) (r : RRaw)
    (b : Byte) (tl : List Byte) (ho : s.drv.Open id = .ok r) (hr : r.rest = b :: tl)
    (hb : b ≠ 1) :
    (s.Open c id).result =
      .done (none, some ("can\x27t read files with version " ++ toString b.val)) ∧
    (s.Open c id).raw =
      some { r with rest := tl, reads := r.reads ++ [1], closes := r.closes + 1 } := by
  have hv : b.val ≠ 1 := fun h => hb (Fin.ext h)
  have hbr := bread_append c r 1 [b] tl hr rfl
  unfold Store.Open openBody
  simp [ho, hbr, readThen, decode_single, hv, RRaw.Close]

theorem version_gate_witness :
    (Store.Open ⟨fileDriver (freshW true none) (freshR [2, 0, 0, 0, 0, 0, 0, 0, 0] none)⟩
      demoCodec "ab12".toList).result =
      .done (none, some ("can\x27t read files with version " ++ toString (2 : Byte).val)) ∧
    (Store.Open ⟨fileDriver (freshW true none) (freshR [2, 0, 0, 0, 0, 0, 0, 0, 0] none)⟩
      demoCodec "ab12".toList).raw =
      some { rest := [0, 0, 0, 0, 0, 0, 0, 0], chunk := none, reads := [] ++ [1],
             closes := 0 + 1 } :=
  version_gate ⟨fileDriver (freshW true none) (freshR [2, 0, 0, 0, 0, 0, 0, 0, 0] none)⟩
    demoCodec "ab12".toList (freshR [2, 0, 0, 0, 0, 0, 0, 0, 0] none) 2 [0, 0, 0, 0, 0, 0, 0, 0]
    rfl rfl (by decide)


/-! ## Cleanup in `CreateId` -/

/-- C6 (cleanup on failure): once the driver has handed out the raw handle,
every return of `CreateId` with an error carries a nil write handle and the
error the header writing stopped with, has closed the raw handle once and has
called `Remove` with the same id; a return without an error has done
neither. -/
theorem create_failure_cleanup {μ : Type} (s : Store) (c : Codec μ) (id : GoString)
    (m : Meta μ) (w0 : WRaw) (hc : s.drv.Create id = .ok w0) :
    (∀ v e, (s.CreateId c id m).result = .done (v, some e) →
      v = none ∧ (createBody c id m w0).2.2 = some e ∧
      (∃ w, (s.CreateId c id m).raw = some w ∧ w.closes = w0.closes + 1) ∧
      (s.CreateId c id m).removed = [id]) ∧
    (∀ v, (s.CreateId c id m).result = .done (v, none) →
      v ≠ none ∧ (∃ w, (s.CreateId c id m).raw = some w ∧ w.closes = w0.closes) ∧
      (s.CreateId c id m).removed = []) ∧
    (∀ e, m.nonNil = true → isNil m = false → c.marshal m = .error e → w0.room = none →
      (s.CreateId c id m).result = .done (none, some e)) ∧
    (w0.room = some 0 → (s.CreateId c id m).result = .done (none, some "write error")) := by
  have hcl := createBody_closes c id m w0
  have hsh := createBody_shaped c id m w0
  unfold Store.CreateId
  simp only [hc]
  refine ⟨?_, ?_, ?_, ?_⟩
  · rcases hb : createBody c id m w0 with ⟨w1, v1, _ | e1⟩
    · simp
    · rw [hb] at hcl
      intro v e hv
      simp only [Run.done.injEq, Prod.mk.injEq, Option.some.injEq] at hv
      refine ⟨hv.1.symm, by simp [hv.2], ⟨w1.Close, rfl, ?_⟩, rfl⟩
      simp only [WRaw.Close]
      exact congrArg (· + 1) hcl
  · rcases hb : createBody c id m w0 with ⟨w1, v1, _ | e1⟩
    · rw [hb] at hcl hsh
      intro v hv
      simp only [Run.done.injEq, Prod.mk.injEq, and_true] at hv
      subst hv
      exact ⟨hsh.1 rfl, ⟨w1, rfl, hcl⟩, rfl⟩
    · simp
  · intro e h1 h2 h3 h4
    simp [createBody, bwrite, WRaw.Write, h4, andThen, h1, h2, h3]
  · intro h4
    simp [createBody, bwrite, WRaw.Write, h4, andThen, encode_length]

theorem create_failure_cleanup_witness :
    (Store.CreateId ⟨fileDriver (freshW true (some 20)) (freshR [] none)⟩ demoCodec
      "ab12".toList (.value [7, 8, 9])).result = .done (none, some "write error") ∧
    (none : Option WFile) = none ∧
    (createBody demoCodec "ab12".toList (.value [7, 8, 9]) (freshW true (some 20))).2.2
      = some "write error" ∧
    (∃ w, (Store.CreateId ⟨fileDriver (freshW true (some 20)) (freshR [] none)⟩ demoCodec
      "ab12".toList (.value [7, 8, 9])).raw = some w ∧ w.closes = 0 + 1) ∧
    (Store.CreateId ⟨fileDriver (freshW true (some 20)) (freshR [] none)⟩ demoCodec
      "ab12".toList (.value [7, 8, 9])).removed = ["ab12".toList] :=
  ⟨by decide,
   (create_failure_cleanup ⟨fileDriver (freshW true (some 20)) (freshR [] none)⟩ demoCodec
      "ab12".toList (.value [7, 8, 9]) (freshW true (some 20)) rfl).1 none "write error"
      (by decide)⟩

/-- C7 (driver `Create` failure): when the driver method `Create` fails with
`e`, `CreateId` does not return: it reaches `panic(err)` and aborts with `e`,
with no raw handle and no call of `Remove`. -/
theorem createId_panics_on_create_error {μ : Type} (c : Codec μ) (id : GoString) (m : Meta μ)
    (e : Err) :
    Store.CreateId ⟨failingDriver e⟩ c id m = { result := .panic e, raw := none, removed := [] } :=
  rfl


/-! ## `New` -/

/-- C8 (configuration errors): `New` always returns. A nil URL and an
unregistered scheme give a nil store and an error; the error for an
unregistered scheme quotes the scheme, and for `file`, `gridfs` and `s3` it
also quotes the package to import; a store is returned only when the scheme is
registered and its opener succeeded. -/
theorem new_errors (quote : GoString → String) (get : GoString → Option Opener) :
    New quote get none = .done (none, some "blobstore is not configured") ∧
    (∀ url : URL, get url.Scheme = none →
      (url.Scheme = "file".toList ∨ url.Scheme = "gridfs".toList ∨ url.Scheme = "s3".toList) →
      New quote get (some url) = .done (none, some ("please import " ++
        quote ("gnd.la/blobstore/driver/".toList ++ url.Scheme) ++
        " to use the blobstore driver " ++ quote url.Scheme))) ∧
    (∀ url : URL, get url.Scheme = none →
      ¬ (url.Scheme = "file".toList ∨ url.Scheme = "gridfs".toList ∨ url.Scheme = "s3".toList) →
      New quote get (some url) = .done (none, some ("unknown blobstore driver " ++
        quote url.Scheme ++ ". Perhaps you forgot an import?"))) ∧
    (∀ (url : Option URL) (st : Store) (e : Option Err),
      New quote get url = .done (some st, e) →
      e = none ∧ ∃ u opener, url = some u ∧ get u.Scheme = some opener ∧
        opener u = .ok st.drv) ∧
    (∀ url : Option URL, ∃ v e, New quote get url = .done (v, e)) := by
  refine ⟨rfl, ?_, ?_, ?_, ?_⟩
  · intro url hg hk
    have hi : imports url.Scheme = "gnd.la/blobstore/driver/".toList ++ url.Scheme := by
      rcases hk with h | h | h <;> rw [h] <;> rfl
    have hne : imports url.Scheme ≠ [] := by
      rcases hk with h | h | h <;> rw [h] <;> decide
    unfold New
    simp only [hg]
    rw [if_pos hne, hi]
  · intro url hg hk
    have h1 : url.Scheme ≠ "file".toList := fun h => hk (Or.inl h)
    have h2 : url.Scheme ≠ "gridfs".toList := fun h => hk (Or.inr (Or.inl h))
    have h3 : url.Scheme ≠ "s3".toList := fun h => hk (Or.inr (Or.inr h))
    have hi : imports url.Scheme = [] := by
      unfold imports
      rw [if_neg h1, if_neg h2, if_neg h3]
    simp [New, hg, hi]
  · intro url st e h
    cases url with
    | none => simp [New] at h
    | some u =>
      unfold New at h
      simp only at h
      cases hg : get u.Scheme with
      | none =>
        rw [hg] at h
        simp only at h
        by_cases hi : imports u.Scheme ≠ [] <;> simp [hi] at h
      | some opener =>
        rw [hg] at h
        simp only at h
        cases ho : opener u with
        | error err => rw [ho] at h; simp at h
        | ok drv =>
          rw [ho] at h
          simp only [Run.done.injEq, Prod.mk.injEq, Option.some.injEq] at h
          refine ⟨h.2.symm, u, opener, rfl, hg, ?_⟩
          rw [← h.1]
          exact ho
  · intro url
    cases url with
    | none => exact ⟨_, _, rfl⟩
    | some u =>
      unfold New
      simp only
      cases get u.Scheme with
      | none =>
        simp only
        by_cases hi : imports u.Scheme ≠ []
        · rw [if_pos hi]; exact ⟨_, _, rfl⟩
        · rw [if_neg hi]; exact ⟨_, _, rfl⟩
      | some opener =>
        simp only
        cases opener u with
        | error err => exact ⟨_, _, rfl⟩
        | ok drv => exact ⟨_, _, rfl⟩

theorem new_errors_witness :
    New demoQuote (fun _ => none) (some ⟨"s3".toList, "bucket".toList⟩) =
      .done (none, some ("please import " ++
        demoQuote ("gnd.la/blobstore/driver/".toList ++ "s3".toList) ++
        " to use the blobstore driver " ++ demoQuote "s3".toList)) ∧
    New demoQuote (fun _ => none) (some ⟨"ftp".toList, "host".toList⟩) =
      .done (none, some ("unknown blobstore driver " ++ demoQuote "ftp".toList ++
        ". Perhaps you forgot an import?")) :=
  ⟨(new_errors demoQuote (fun _ => none)).2.1 ⟨"s3".toList, "bucket".toList⟩ rfl
     (Or.inr (Or.inr rfl)),
   (new_errors demoQuote (fun _ => none)).2.2.1 ⟨"ftp".toList, "host".toList⟩ rfl (by decide)⟩


/-! ## Absent metadata -/

/-- C9, as stated, fails on a handle that is not seekable: for nil metadata
`CreateId` writes the 25 header bytes and stops, and `Open` on those bytes
finds no data length and returns a nil read handle with `EOF`. -/
theorem empty_metadata_counterexample :
    Store.CreateId ⟨fileDriver (freshW false none) (freshR [] none)⟩ demoCodec "ab12".toList
        .nil =
      { result := .done (some { id := "ab12".toList, metadataLength := 0, dataHash := [],
                                seeker := false }, none),
        raw := some { written := (1 : Byte) :: List.replicate 24 0, room := none,
                      seekable := false, closes := 0 },
        removed := [] } ∧
    (Store.Open ⟨fileDriver (freshW false none) (freshR ((1 : Byte) :: List.replicate 24 0) none)⟩
        demoCodec "ab12".toList).result = .done (none, some "EOF") := by
  constructor <;> decide

/-- C9 (absent metadata), amended: for a nil interface or a nil pointer a
successful `CreateId` writes the version byte 1 and then 24 zero bytes, that
is flags 0, metadata length 0 and metadata hash 0 with no metadata bytes,
followed by 16 zero bytes when the handle is seekable; and on a fresh seekable
handle `Open` on the bytes written returns a read handle with empty metadata
and metadata hash 0. -/
theorem empty_metadata {μ : Type} (s : Store) (c : Codec μ) (id : GoString) (m : Meta μ)
    (w0 w : WRaw) (wf : WFile) (r : RRaw)
    (hm : m = .nil ∨ m = .nilPtr) (hc : s.drv.Create id = .ok w0)
    (hres : (s.CreateId c id m).result = .done (some wf, none))
    (hraw : (s.CreateId c id m).raw = some w) :
    w.written = w0.written ++ ([1] ++ List.replicate 8 0 ++ List.replicate 8 0 ++
      List.replicate 8 0 ++ (if w0.seekable then List.replicate 16 0 else [])) ∧
    decode c.order (List.replicate 8 0) = 0 ∧ wf.metadataLength = 0 ∧
    (w0.written = [] → w0.seekable = true → s.drv.Open id = .ok r → r.rest = w.written →
      ∃ rf : RFile, (s.Open c id).result = .done (some rf, none) ∧
        rf.metadataData = [] ∧ rf.metadataHash = 0) := by
  have hm2 : (m.nonNil && !isNil m) = false := by
    rcases hm with h | h <;> rw [h] <;> rfl
  obtain ⟨hw, hv⟩ := createBody_written_nil hm2 (CreateId_done hc hres hraw)
  have hdec : decode c.order (List.replicate 8 0) = 0 := by
    rw [← encode_zero c.order 8, decode_encode, Nat.zero_mod]
  refine ⟨?_, hdec, ?_, ?_⟩
  · rw [hw, emptyHeader]
    rfl
  · simp only [Option.some.injEq] at hv
    rw [hv]
  · intro h0 hs ho hr
    have hrest : r.rest = encode c.order 1 1 ++ (encode c.order 8 0 ++ (encode c.order 8 0 ++
        (encode c.order 8 0 ++ ([] ++ (List.replicate 8 0 ++ (List.replicate 8 0 ++ [])))))) := by
      rw [hr, hw, h0, hs, encode_version, encode_zero, emptyHeader]
      rfl
    obtain ⟨hb, -, -⟩ := openBody_ok c id r 0 0 _ [] _ _ [] hrest
      (encode_length _ _ _) (by simp) (by simp) rfl (by decide) (Nat.zero_le _) (by
        unfold RRaw.fills; cases r.chunk <;> simp)
    exact ⟨_, (Open_of_body ho hb).1, rfl, rfl⟩

theorem empty_metadata_witness :
    ∃ rf : RFile,
      (Store.Open ⟨fileDriver (freshW true none)
        (freshR ((1 : Byte) :: List.replicate 40 0) none)⟩ demoCodec "ab12".toList).result
        = .done (some rf, none) ∧
      rf.metadataData = [] ∧ rf.metadataHash = 0 :=
  (empty_metadata
    ⟨fileDriver (freshW true none) (freshR ((1 : Byte) :: List.replicate 40 0) none)⟩
    demoCodec "ab12".toList .nilPtr (freshW true none)
    { written := (1 : Byte) :: List.replicate 40 0, room := none, seekable := true, closes := 0 }
    { id := "ab12".toList, metadataLength := 0, dataHash := [], seeker := true }
    (freshR ((1 : Byte) :: List.replicate 40 0) none)
    (Or.inr rfl) rfl (by decide) (by decide)).2.2.2 rfl rfl rfl (by decide)

/-! ## A metadata length that cannot be honoured -/

theorem decode_ones (o : ByteOrder) : decode o (List.replicate 8 255) = 2 ^ 64 - 1 := by
  cases o <;> decide

theorem int64_ones : int64 (2 ^ 64 - 1) = -1 := by
  decide

/-- C10 (metadata length above the largest signed integer): on a header whose
metadata length field is `0xFFFFFFFFFFFFFFFF`, `Open` returns neither a read
handle nor an error: `make` is asked for a negative length and aborts, and the
raw handle is left open. -/
theorem open_panics_on_huge_length {μ : Type} (c : Codec μ) (id : GoString) :
    Store.Open ⟨fileDriver (freshW true none)
        (freshR ([1] ++ List.replicate 8 0 ++ List.replicate 8 255 ++ List.replicate 24 0) none)⟩
        c id =
      { result := .panic "makeslice: len out of range",
        raw := some { rest := List.replicate 16 0, chunk := none, reads := [1, 8, 8, 8],
                      closes := 0 } } := by
  have e1 := bread_append c
    (freshR ([1] ++ List.replicate 8 0 ++ List.replicate 8 255 ++ List.replicate 24 0) none)
    1 [1] (List.replicate 8 0 ++ (List.replicate 8 255 ++ (List.replicate 8 0 ++
      List.replicate 16 0))) (by decide) rfl
  unfold Store.Open openBody
  simp only [fileDriver, e1, readThen, decode_single]
  rw [if_neg (by decide)]
  rw [bread_append c _ 8 (List.replicate 8 0) _ rfl rfl]
  simp only
  rw [bread_append c _ 8 (List.replicate 8 255) _ rfl rfl]
  simp only
  rw [bread_append c _ 8 (List.replicate 8 0) _ rfl rfl]
  simp only [decode_ones]
  rw [if_pos (by decide), int64_ones]
  rfl

/-! ## The filesystem driver -/

theorem diskOS_exclusive : diskOS.Exclusive := by
  intro st name flags perm hc he hx
  have hx2 : name ∈ st.files ∨ name ∈ st.dirs := by simpa [diskOS] using hx
  refine ⟨st, "file exists", ?_⟩
  simp only [diskOS]
  rw [if_pos hx2, if_pos ⟨hc, he⟩]

/-- C11, as stated, fails for an id whose stem has fewer than two bytes: for
the id `a` method `Create` creates the temporary file `base/tmp/a` and then
aborts in `path`, so no handle records a final target; `Open` and `Remove`
abort as well. -/
theorem fs_driver_counterexample :
    baseDriver.Create diskOS emptyStore "a".toList =
      ({ files := ["base/tmp/a".toList], dirs := ["base".toList, "base/tmp".toList] },
        .panic "slice bounds out of range") ∧
    baseDriver.Open diskOS emptyStore "a".toList = .panic "slice bounds out of range" ∧
    baseDriver.Remove diskOS emptyStore "a".toList =
      (emptyStore, .panic "slice bounds out of range") := by
  decide

/-- C11 (filesystem driver), amended to ids whose stem has at least two bytes:
`Create` opens `Join(tmpDir, id)` with `O_RDWR|O_CREATE|O_EXCL`, returns the
error when that fails, as it does under exclusive-create semantics when the
name exists already, and otherwise returns a handle on the file that records
`path(id)`; `Open` opens `path(id)`; `Remove` removes `path(id)`. -/
theorem fs_driver_paths {σ φ : Type} (f : fsDriver) (os : OS σ φ) (st : σ) (id : GoString)
    (h : 2 ≤ (stem id).length) :
    ∃ p, f.path id = .done p ∧
      (∀ st1 e, os.OpenFile st (Join [f.tmpDir, id]) [.O_RDWR, .O_CREATE, .O_EXCL] 0o644
          = (st1, .error e) →
        f.Create os st id = (st1, .done (none, some e))) ∧
      (∀ st1 fp, os.OpenFile st (Join [f.tmpDir, id]) [.O_RDWR, .O_CREATE, .O_EXCL] 0o644
          = (st1, .ok fp) →
        f.Create os st id = (st1, .done (some { File := fp, path := p }, none))) ∧
      (os.Exclusive → os.Exists st (Join [f.tmpDir, id]) = true →
        ∃ st1 e, f.Create os st id = (st1, .done (none, some e))) ∧
      f.Open os st id = .done (openResult (os.Open st p)) ∧
      f.Remove os st id = ((os.Remove st p).1, .done (os.Remove st p).2) := by
  refine ⟨_, path_eq_of_stem f id h, ?_, ?_, ?_, ?_, ?_⟩
  · intro st1 e ho
    simp only [fsDriver.Create, ho]
  · intro st1 fp ho
    simp only [fsDriver.Create, ho, path_eq_of_stem f id h]
  · intro hex hx
    obtain ⟨st1, e, ho⟩ := hex st (Join [f.tmpDir, id]) [.O_RDWR, .O_CREATE, .O_EXCL] 0o644
      (by decide) (by decide) hx
    exact ⟨st1, e, by simp only [fsDriver.Create, ho]⟩
  · simp only [fsDriver.Open, path_eq_of_stem f id h]
  · simp only [fsDriver.Remove, path_eq_of_stem f id h]

theorem fs_driver_paths_witness :
    (∃ p, baseDriver.path "abc123XY.png".toList = .done p ∧
      (∀ st1 e, diskOS.OpenFile emptyStore (Join [baseDriver.tmpDir, "abc123XY.png".toList])
          [.O_RDWR, .O_CREATE, .O_EXCL] 0o644 = (st1, .error e) →
        baseDriver.Create diskOS emptyStore "abc123XY.png".toList
          = (st1, .done (none, some e))) ∧
      (∀ st1 fp, diskOS.OpenFile emptyStore (Join [baseDriver.tmpDir, "abc123XY.png".toList])
          [.O_RDWR, .O_CREATE, .O_EXCL] 0o644 = (st1, .ok fp) →
        baseDriver.Create diskOS emptyStore "abc123XY.png".toList
          = (st1, .done (some { File := fp, path := p }, none))) ∧
      (diskOS.Exclusive →
        diskOS.Exists emptyStore (Join [baseDriver.tmpDir, "abc123XY.png".toList]) = true →
        ∃ st1 e, baseDriver.Create diskOS emptyStore "abc123XY.png".toList
          = (st1, .done (none, some e))) ∧
      baseDriver.Open diskOS emptyStore "abc123XY.png".toList
        = .done (openResult (diskOS.Open emptyStore p)) ∧
      baseDriver.Remove diskOS emptyStore "abc123XY.png".toList
        = ((diskOS.Remove emptyStore p).1, .done (diskOS.Remove emptyStore p).2)) ∧
    baseDriver.Create diskOS emptyStore "abc123XY.png".toList =
      ({ files := ["base/tmp/abc123XY.png".toList], dirs := ["base".toList, "base/tmp".toList] },
        .done (some { File := "base/tmp/abc123XY.png".toList,
                      path := "base/XY/abc123.png".toList }, none)) ∧
    baseDriver.Create diskOS
        { files := ["base/tmp/abc123XY.png".toList], dirs := ["base".toList, "base/tmp".toList] }
        "abc123XY.png".toList =
      ({ files := ["base/tmp/abc123XY.png".toList], dirs := ["base".toList, "base/tmp".toList] },
        .done (none, some "file exists")) ∧
    (∃ st1 e, baseDriver.Create diskOS
        { files := ["base/tmp/abc123XY.png".toList], dirs := ["base".toList, "base/tmp".toList] }
        "abc123XY.png".toList = (st1, .done (none, some e))) :=
  ⟨fs_driver_paths baseDriver diskOS emptyStore "abc123XY.png".toList (by decide),
   by decide, by decide,
   (fs_driver_paths baseDriver diskOS
      { files := ["base/tmp/abc123XY.png".toList], dirs := ["base".toList, "base/tmp".toList] }
      "abc123XY.png".toList (by decide)).choose_spec.2.2.2.1 diskOS_exclusive (by decide)⟩

/-! ## Context values -/

theorem index_assign_same {V : Type} (m : GoMap V) (k : GoString) (v : Option V) :
    (m.assign k v).index k = v := by
  induction m with
  | nil => simp [GoMap.assign, GoMap.index]
  | cons kv rest ih =>
    obtain ⟨k1, v1⟩ := kv
    by_cases h : k1 = k
    · simp [GoMap.assign, GoMap.index, h]
    · simp [GoMap.assign, GoMap.index, h, ih]

theorem index_assign_other {V : Type} (m : GoMap V) (k k2 : GoString) (v : Option V)
    (hk : k2 ≠ k) : (m.assign k v).index k2 = m.index k2 := by
  induction m with
  | nil => simp [GoMap.assign, GoMap.index, Ne.symm hk]
  | cons kv rest ih =>
    obtain ⟨k1, v1⟩ := kv
    by_cases h : k1 = k
    · subst h
      simp [GoMap.assign, GoMap.index, Ne.symm hk]
    · by_cases h2 : k1 = k2
      · subst h2
        simp [GoMap.assign, GoMap.index, h]
      · simp [GoMap.assign, GoMap.index, h, h2, ih]

theorem Get_Set_same {V : Type} (c : Context V) (k : GoString) (v : Option V) :
    (c.Set k v).Get k = v := by
  simp only [Context.Set, Context.Get]
  exact index_assign_same _ k v

theorem Get_Set_other {V : Type} (c : Context V) (k k2 : GoString) (v : Option V)
    (hk : k2 ≠ k) : (c.Set k v).Get k2 = c.Get k2 := by
  simp only [Context.Set, Context.Get]
  rw [index_assign_other _ k k2 v hk]
  cases c.values <;> rfl

theorem Get_after_sets {V : Type} (ops : List (GoString × Option V)) (c : Context V)
    (k : GoString) (hk : k ∉ ops.map Prod.fst) :
    (ops.foldl (fun c kv => c.Set kv.1 kv.2) c).Get k = c.Get k := by
  induction ops generalizing c with
  | nil => rfl
  | cons kv rest ih =>
    simp only [List.map_cons, List.mem_cons, not_or] at hk
    simp only [List.foldl_cons]
    rw [ih _ hk.2, Get_Set_other c kv.1 k kv.2 hk.1]

/-- C12 (context values): `Get(k)` after `Set(k, v)` returns `v`, also when the
value map was nil; `Set(k, v)` leaves `Get` unchanged on every other key; and
after `reset` and any sequence of `Set` on other keys, `Get(k)` is nil. -/
theorem context_get_set {V : Type} (c : Context V) (k : GoString) (v : Option V) :
    (c.Set k v).Get k = v ∧
    (∀ k2, k2 ≠ k → (c.Set k v).Get k2 = c.Get k2) ∧
    (∀ ops : List (GoString × Option V), k ∉ ops.map Prod.fst →
      (ops.foldl (fun c kv => c.Set kv.1 kv.2) c.reset).Get k = none) :=
  ⟨Get_Set_same c k v, fun k2 hk => Get_Set_other c k k2 v hk,
   fun ops hk => (Get_after_sets ops c.reset k hk).trans rfl⟩

theorem context_get_set_witness :
    (blankContext.Set "user".toList (some 7)).Get "lang".toList = blankContext.Get "lang".toList ∧
    ([("user".toList, some 7), ("page".toList, none)].foldl (fun c kv => c.Set kv.1 kv.2)
      blankContext.reset).Get "lang".toList = none :=
  ⟨(context_get_set blankContext "user".toList (some 7)).2.1 "lang".toList (by decide),
   (context_get_set blankContext "lang".toList (some 7)).2.2
     [("user".toList, some 7), ("page".toList, none)] (by decide)⟩

/-! ## The simple mediator -/

theorem skipLoop_done (jar : Cookies) (rq : Request) (hj : jar.r = some rq)
    (vs : List GoString) :
    ∃ b, skipLoop jar vs = .done b ∧
      (b = true ↔ ∃ v ∈ vs, v ∈ rq.Cookies.map Prod.fst) := by
  induction vs with
  | nil => exact ⟨false, rfl, by simp⟩
  | cons v rest ih =>
    obtain ⟨b, hb, hiff⟩ := ih
    have hHas : jar.Has v = .done (decide (v ∈ rq.Cookies.map Prod.fst)) := by
      simp only [Cookies.Has, hj]
    by_cases hv : v ∈ rq.Cookies.map Prod.fst
    · refine ⟨true, ?_, ?_⟩
      · rw [skipLoop, hHas, decide_eq_true hv]
      · simp only [true_iff]
        exact ⟨v, List.mem_cons_self _ _, hv⟩
    · refine ⟨b, ?_, ?_⟩
      · rw [skipLoop, hHas, decide_eq_false hv]
        exact hb
      · rw [hiff]
        constructor
        · rintro ⟨x, hx, hc⟩
          exact ⟨x, List.mem_cons_of_mem _ hx, hc⟩
        · rintro ⟨x, hx, hc⟩
          rcases List.mem_cons.mp hx with h | h
          · exact absurd (h ▸ hc) hv
          · exact ⟨x, h, hc⟩

theorem Cookies_of_jarRequest {V : Type} (ctx : Context V) (rq : Request)
    (h : jarRequest ctx = some rq) :
    ∃ ctx1 jar, ctx.Cookies = (ctx1, .done jar) ∧ jar.r = some rq := by
  unfold jarRequest at h
  unfold Context.Cookies
  cases hc : ctx.cookies with
  | some jar =>
    rw [hc] at h
    exact ⟨ctx, jar, rfl, h⟩
  | none =>
    rw [hc] at h
    cases ha : ctx.app with
    | none => rw [ha] at h; exact Option.noConfusion h
    | some a =>
      rw [ha] at h
      exact ⟨_, _, rfl, h⟩

/-- C13, as stated, fails on two contexts with a `GET` request. On the first,
with neither an app nor a jar, `Skip` aborts inside `ctx.Cookies()` and
returns no boolean. On the second, which keeps a jar made for an earlier
request carrying the cookie `sid`, `Skip` returns true although the request
of the context carries no cookie. -/
theorem simple_mediator_counterexample :
    (SimpleMediator.Skip ⟨["sid".toList], 60⟩ (bareContext ⟨"GET".toList, []⟩)).2
      = .panic "nil pointer dereference" ∧
    (SimpleMediator.Skip ⟨["sid".toList], 60⟩
      { servingContext ⟨"GET".toList, []⟩ 0 with
        cookies := some { r := some ⟨"GET".toList, [("sid".toList, "1".toList)]⟩ } }).2
      = .done true := by
  decide

/-- C13 (simple mediator), amended: on a context with a request, `Skip`
returns true when the method is neither `GET` nor `HEAD`; and when the jar of
the context can be had, kept from earlier or made by the app for the request,
`Skip` returns true exactly when the method is neither `GET` nor `HEAD` or
some name of `SkipCookies` is the name of a cookie of the request the jar
keeps, which is the request of the context when no jar was kept. `Cache`
returns true exactly for the response code 200, whatever the context and the
headers, and `Expires` returns `Expiration`. -/
theorem simple_mediator_policy {V : Type} (m : SimpleMediator) (ctx : Context V) (r : Request)
    (code : Int) (hdr : List (GoString × GoString)) (hR : ctx.R = some r) :
    ((r.Method ≠ "GET".toList ∧ r.Method ≠ "HEAD".toList) → (m.Skip ctx).2 = .done true) ∧
    (∀ rq, jarRequest ctx = some rq →
      ∃ b, (m.Skip ctx).2 = .done b ∧
        (b = true ↔ ((r.Method ≠ "GET".toList ∧ r.Method ≠ "HEAD".toList) ∨
          ∃ v ∈ m.SkipCookies, v ∈ rq.Cookies.map Prod.fst))) ∧
    (ctx.cookies = none → ctx.app ≠ none → jarRequest ctx = some r) ∧
    (m.Cache ctx code hdr = true ↔ code = 200) ∧
    m.Expires ctx code hdr = m.Expiration := by
  refine ⟨?_, ?_, ?_, by simp [SimpleMediator.Cache], rfl⟩
  · intro hm
    unfold SimpleMediator.Skip
    rw [hR]
    simp only [if_pos hm]
  · intro rq hj
    unfold SimpleMediator.Skip
    rw [hR]
    by_cases hm : r.Method ≠ "GET".toList ∧ r.Method ≠ "HEAD".toList
    · exact ⟨true, by simp only [if_pos hm], ⟨fun _ => Or.inl hm, fun _ => rfl⟩⟩
    · obtain ⟨ctx1, jar, hc, hjr⟩ := Cookies_of_jarRequest ctx rq hj
      obtain ⟨b, hb, hiff⟩ := skipLoop_done jar rq hjr m.SkipCookies
      refine ⟨b, by simp only [if_neg hm, hc, hb], ?_⟩
      rw [hiff]
      constructor
      · exact fun h => Or.inr h
      · rintro (h | h)
        · exact absurd h hm
        · exact h
  · intro hc ha
    unfold jarRequest
    rw [hc]
    cases hap : ctx.app with
    | none => exact absurd hap ha
    | some a => exact hR

theorem simple_mediator_policy_witness :
    jarRequest (servingContext ⟨"GET".toList, [("sid".toList, "1".toList)]⟩ 0)
      = some ⟨"GET".toList, [("sid".toList, "1".toList)]⟩ ∧
    (∃ b, (SimpleMediator.Skip ⟨["sid".toList], 60⟩
        (servingContext ⟨"GET".toList, [("sid".toList, "1".toList)]⟩ 0)).2 = .done b ∧
      (b = true ↔ (("GET".toList ≠ "GET".toList ∧ "GET".toList ≠ "HEAD".toList) ∨
        ∃ v ∈ ["sid".toList], v ∈ [("sid".toList, "1".toList)].map Prod.fst))) ∧
    (SimpleMediator.Skip ⟨["sid".toList], 60⟩
        (servingContext ⟨"GET".toList, [("sid".toList, "1".toList)]⟩ 0)).2 = .done true :=
  ⟨by decide,
   (simple_mediator_policy ⟨["sid".toList], 60⟩
    (servingContext ⟨"GET".toList, [("sid".toList, "1".toList)]⟩ 0)
    ⟨"GET".toList, [("sid".toList, "1".toList)]⟩ 404 [] rfl).2.1
    ⟨"GET".toList, [("sid".toList, "1".toList)]⟩ (by decide),
   by decide⟩

/-! ## Status code of a context -/

theorem neg64_neg (k : Int) (h0 : 0 < k) (h1 : k < 2 ^ 63) : neg64 (-k) = k := by
  unfold neg64 wrap64
  rw [neg_neg]
  have e : (k + 2 ^ 63) % 2 ^ 64 = k + 2 ^ 63 :=
    Int.emod_eq_of_lt (by omega) (by omega)
  rw [e]
  omega

theorem WriteHeader_status {V : Type} (prof : Option (GoString × GoString)) (c : Context V)
    (code : Int) :
    (c.WriteHeader prof code).1.statusCode =
      if c.statusCode < 0 then neg64 c.statusCode else code := by
  unfold Context.WriteHeader
  cases c.ResponseWriter <;> rfl

theorem WriteHeader_calls {V : Type} (prof : Option (GoString × GoString)) (c : Context V)
    (code : Int) (calls : List RWCall) (hw : c.ResponseWriter = some calls) :
    (c.WriteHeader prof code).1.ResponseWriter =
      some (headerCalls prof calls (if c.statusCode < 0 then neg64 c.statusCode else code)) ∧
    (c.WriteHeader prof code).2 = .done () := by
  unfold Context.WriteHeader
  simp only [hw]
  cases prof <;> exact ⟨rfl, trivial⟩

/-- C14 (status code): `StatusCode` is 0 after `reset`; `WriteHeader(code)` on
a status that is not negative stores `code` and forwards it; on a stored
status `-k` it stores and forwards `k` whatever the code; and `Write` on a
stored status 0 first writes the header with 200 and then the data, leaving
the status 200. -/
theorem status_code_tracking {V : Type} (prof : Option (GoString × GoString)) (c : Context V) :
    c.reset.StatusCode = 0 ∧
    (∀ code, 0 ≤ c.statusCode →
      (c.WriteHeader prof code).1.StatusCode = code ∧
      ∀ calls, c.ResponseWriter = some calls →
        (c.WriteHeader prof code).1.ResponseWriter = some (headerCalls prof calls code)) ∧
    (∀ k code, 0 < k → k < 2 ^ 63 → c.statusCode = -k →
      (c.WriteHeader prof code).1.StatusCode = k ∧
      ∀ calls, c.ResponseWriter = some calls →
        (c.WriteHeader prof code).1.ResponseWriter = some (headerCalls prof calls k)) ∧
    (∀ data, c.statusCode = 0 →
      (c.Write prof data).1.StatusCode = 200 ∧
      ∀ calls, c.ResponseWriter = some calls →
        (c.Write prof data).1.ResponseWriter =
          some (headerCalls prof calls 200 ++ [.write data])) := by
  refine ⟨rfl, ?_, ?_, ?_⟩
  · intro code h
    have hn : ¬ c.statusCode < 0 := by omega
    refine ⟨?_, fun calls hw => ?_⟩
    · simp only [Context.StatusCode, WriteHeader_status, if_neg hn]
    · rw [(WriteHeader_calls prof c code calls hw).1, if_neg hn]
  · intro k code h0 h1 hk
    have hn : c.statusCode < 0 := by omega
    refine ⟨?_, fun calls hw => ?_⟩
    · simp only [Context.StatusCode, WriteHeader_status, if_pos hn]
      rw [hk, neg64_neg k h0 h1]
    · rw [(WriteHeader_calls prof c code calls hw).1, if_pos hn, hk, neg64_neg k h0 h1]
  · intro data h
    have hle : c.statusCode ≤ 0 := by omega
    have hn : ¬ c.statusCode < 0 := by omega
    have hst := WriteHeader_status prof c 200
    rw [if_neg hn] at hst
    unfold Context.Write
    simp only [if_pos hle]
    cases hw : c.ResponseWriter with
    | none =>
      refine ⟨?_, fun calls hc => by simp at hc⟩
      have hp : c.WriteHeader prof 200 =
          ({ c with statusCode := 200 }, .panic "nil pointer dereference") := by
        unfold Context.WriteHeader
        simp only [hw, if_neg hn]
      rw [hp]
      rfl
    | some calls0 =>
      obtain ⟨h1, h2⟩ := WriteHeader_calls prof c 200 calls0 hw
      rw [if_neg hn] at h1
      rcases hq : c.WriteHeader prof 200 with ⟨c1, res⟩
      rw [hq] at h1 h2 hst
      simp only at h1 h2 hst
      subst h2
      simp only [h1]
      refine ⟨hst, fun calls hc => ?_⟩
      simp only [Option.some.injEq] at hc
      rw [hc]

theorem status_code_tracking_witness :
    ((servingContext ⟨"GET".toList, []⟩ (-404)).WriteHeader none 200).1.StatusCode = 404 ∧
    (∀ calls, (servingContext ⟨"GET".toList, []⟩ (-404)).ResponseWriter = some calls →
      ((servingContext ⟨"GET".toList, []⟩ (-404)).WriteHeader none 200).1.ResponseWriter
        = some (headerCalls none calls 404)) :=
  (status_code_tracking none (servingContext ⟨"GET".toList, []⟩ (-404))).2.2.1 404 200
    (by decide) (by decide) (by decide)

/-! ## `filepath.Clean` on a sharded path -/

theorem splitSlash_ne_nil (p : GoString) : splitSlash p ≠ [] := by
  cases p with
  | nil => simp [splitSlash]
  | cons c cs =>
    unfold splitSlash
    cases splitSlash cs with
    | nil => simp
    | cons e es => by_cases h : c = '/' <;> simp [h]

theorem splitSlash_plain (a : GoString) (h : '/' ∉ a) : splitSlash a = [a] := by
  induction a with
  | nil => rfl
  | cons c cs ih =>
    simp only [List.mem_cons, not_or] at h
    unfold splitSlash
    rw [ih h.2]
    simp [Ne.symm h.1]

theorem splitSlash_append (a b : GoString) :
    splitSlash (a ++ '/' :: b) = splitSlash a ++ splitSlash b := by
  induction a with
  | nil =>
    simp only [List.nil_append]
    rw [splitSlash]
    cases hb : splitSlash b with
    | nil => exact absurd hb (splitSlash_ne_nil b)
    | cons e es => simp [splitSlash, hb]
  | cons c cs ih =>
    simp only [List.cons_append]
    rw [splitSlash, ih]
    conv_rhs => rw [splitSlash]
    cases ha : splitSlash cs with
    | nil => exact absurd ha (splitSlash_ne_nil cs)
    | cons e es => by_cases h : c = '/' <;> simp [h, ha]

theorem cleanStep_plain (rooted : Bool) (out : List GoString) (e : GoString) (h : Plain e) :
    cleanStep rooted out e = e :: out := by
  unfold cleanStep
  obtain ⟨h1, -, h3, h4⟩ := h
  simp [h1, h3, h4]

theorem cleanStep_skip (rooted : Bool) (out : List GoString) (e : GoString)
    (h : e = [] ∨ e = ['.']) : cleanStep rooted out e = out := by
  unfold cleanStep
  rw [if_pos h]


theorem intercalate_cons_cons (sep x y : GoString) (zs : List GoString) :
    List.intercalate sep (x :: y :: zs) = x ++ (sep ++ List.intercalate sep (y :: zs)) := by
  simp [List.intercalate, List.intersperse]

theorem intercalate_append_ne (sep : GoString) (D T : List GoString) (hD : D ≠ [])
    (hT : T ≠ []) :
    List.intercalate sep (D ++ T) = List.intercalate sep D ++ (sep ++ List.intercalate sep T) := by
  induction D with
  | nil => exact absurd rfl hD
  | cons d rest ih =>
    cases T with
    | nil => exact absurd rfl hT
    | cons t ts =>
      cases rest with
      | nil =>
        simp only [List.cons_append, List.nil_append]
        rw [intercalate_cons_cons]
        simp [List.intercalate, List.intersperse]
      | cons r rs =>
        have := ih (by simp)
        simp only [List.cons_append] at this ⊢
        rw [intercalate_cons_cons, this, intercalate_cons_cons]
        simp [List.append_assoc]

theorem Clean_render (q : GoString) (hq : q ≠ []) :
    Clean q =
      if (if q.head? = some '/' then '/' :: List.intercalate ['/'] (cleanParts q)
          else List.intercalate ['/'] (cleanParts q)) = [] then ['.']
      else (if q.head? = some '/' then '/' :: List.intercalate ['/'] (cleanParts q)
            else List.intercalate ['/'] (cleanParts q)) := by
  unfold Clean cleanParts
  rw [if_neg hq]

theorem cleanParts_append (dir : GoString) (hd : dir ≠ []) (b : GoString) :
    cleanParts (dir ++ '/' :: b) =
      ((splitSlash b).foldl (cleanStep (decide (dir.head? = some '/')))
        (cleanParts dir).reverse).reverse := by
  have hh : (dir ++ '/' :: b).head? = dir.head? := by
    cases dir with
    | nil => exact absurd rfl hd
    | cons c cs => rfl
  unfold cleanParts
  rw [hh, splitSlash_append, List.foldl_append, List.reverse_reverse]


theorem sharded_parts (dir S F : GoString) (hd : dir ≠ []) (hS : Plain S) (hF : '/' ∉ F) :
    (Plain F → cleanParts (dir ++ '/' :: (S ++ '/' :: F)) = cleanParts dir ++ [S, F]) ∧
    (F = [] ∨ F = ['.'] → cleanParts (dir ++ '/' :: (S ++ '/' :: F)) = cleanParts dir ++ [S]) := by
  have hsp : splitSlash (S ++ '/' :: F) = [S, F] := by
    rw [splitSlash_append, splitSlash_plain S hS.2.1, splitSlash_plain F hF]
    rfl
  have hp := cleanParts_append dir hd (S ++ '/' :: F)
  rw [hsp] at hp
  simp only [List.foldl_cons, List.foldl_nil, cleanStep_plain _ _ S hS] at hp
  constructor
  · intro hP
    rw [hp, cleanStep_plain _ _ F hP]
    simp
  · intro h
    rw [hp, cleanStep_skip _ _ F h]
    simp

theorem sharded_parts_nil (S F : GoString) (hS : Plain S) (hF : '/' ∉ F) :
    (Plain F → cleanParts (S ++ '/' :: F) = [S, F]) ∧
    (F = [] ∨ F = ['.'] → cleanParts (S ++ '/' :: F) = [S]) := by
  have hsp : splitSlash (S ++ '/' :: F) = [S, F] := by
    rw [splitSlash_append, splitSlash_plain S hS.2.1, splitSlash_plain F hF]
    rfl
  unfold cleanParts
  rw [hsp]
  simp only [List.foldl_cons, List.foldl_nil, cleanStep_plain _ _ S hS]
  constructor
  · intro hP
    rw [cleanStep_plain _ _ F hP]
    rfl
  · intro h
    rw [cleanStep_skip _ _ F h]
    rfl

theorem Clean_of_parts (q dir : GoString) (T : List GoString) (hq : q ≠ [])
    (hh : q.head? = some '/' ↔ dir.head? = some '/')
    (hp : cleanParts q = cleanParts dir ++ T) (hT : T ≠ [])
    (hne : List.intercalate ['/'] T ≠ []) :
    Clean q = basePrefix dir ++ List.intercalate ['/'] T := by
  rw [Clean_render q hq, hp]
  unfold basePrefix
  have hbody : List.intercalate ['/'] (cleanParts dir ++ T) =
      (if cleanParts dir = [] then [] else List.intercalate ['/'] (cleanParts dir) ++ ['/'])
        ++ List.intercalate ['/'] T := by
    by_cases hD : cleanParts dir = []
    · rw [hD, if_pos rfl]
      rfl
    · rw [if_neg hD, intercalate_append_ne _ _ _ hD hT]
      simp [List.append_assoc]
  have hb : List.intercalate ['/'] (cleanParts dir ++ T) ≠ [] := by
    rw [hbody]
    intro h
    exact hne (List.append_eq_nil.mp h).2
  by_cases hr : q.head? = some '/'
  · rw [if_pos hr, if_pos (hh.mp hr), if_neg (by simp), hbody]
    simp
  · rw [if_neg hr, if_neg (fun h => hr (hh.mpr h)), if_neg hb, hbody]
    simp

theorem Join_sharded (dir S F : GoString) (hS : Plain S) (hF : '/' ∉ F) :
    (Plain F → Join [dir, S, F] = basePrefix dir ++ (S ++ '/' :: F)) ∧
    (F = [] ∨ F = ['.'] → Join [dir, S, F] = basePrefix dir ++ S) := by
  have hS0 : S ≠ [] := hS.1
  have hi2 : List.intercalate ['/'] [S, F] = S ++ '/' :: F := by
    simp [List.intercalate, List.intersperse]
  have hi1 : List.intercalate ['/'] [S] = S := by
    simp [List.intercalate, List.intersperse]
  have hSh : ¬ S.head? = some '/' := by
    intro h
    cases S with
    | nil => exact hS0 rfl
    | cons c cs =>
      simp only [List.head?_cons, Option.some.injEq] at h
      exact hS.2.1 (h ▸ List.mem_cons_self _ _)
  by_cases hd : dir = []
  · subst hd
    have hj : Join [[], S, F] = Clean (S ++ '/' :: F) := by
      simp [Join, hS0, List.intercalate, List.intersperse]
    have hq : S ++ '/' :: F ≠ [] := by simp [hS0]
    have hh : (S ++ '/' :: F).head? = some '/' ↔ ([] : GoString).head? = some '/' := by
      cases S with
      | nil => exact absurd rfl hS0
      | cons c cs => simpa using hSh
    obtain ⟨p1, p2⟩ := sharded_parts_nil S F hS hF
    have hc : cleanParts ([] : GoString) = [] := by decide
    constructor
    · intro hP
      rw [hj, Clean_of_parts _ [] [S, F] hq hh (by rw [hc, p1 hP]; rfl) (by simp)
        (by rw [hi2]; simp), hi2]
    · intro h
      rw [hj, Clean_of_parts _ [] [S] hq hh (by rw [hc, p2 h]; rfl) (by simp)
        (by rw [hi1]; exact hS0), hi1]
  · have hj : Join [dir, S, F] = Clean (dir ++ '/' :: (S ++ '/' :: F)) := by
      simp [Join, hd, List.intercalate, List.intersperse]
    have hq : dir ++ '/' :: (S ++ '/' :: F) ≠ [] := by simp [hd]
    have hh : (dir ++ '/' :: (S ++ '/' :: F)).head? = some '/' ↔ dir.head? = some '/' := by
      cases dir with
      | nil => exact absurd rfl hd
      | cons c cs => simp
    obtain ⟨p1, p2⟩ := sharded_parts dir S F hd hS hF
    constructor
    · intro hP
      rw [hj, Clean_of_parts _ dir [S, F] hq hh (p1 hP) (by simp) (by rw [hi2]; simp), hi2]
    · intro h
      rw [hj, Clean_of_parts _ dir [S] hq hh (p2 h) (by simp) (by rw [hi1]; exact hS0), hi1]


/-! ## The extension and the stem of an id -/

theorem extFrom_spec (p : GoString) (n : Nat) (hn : n ≤ p.length)
    (hd : ∀ c ∈ p.drop n, c ≠ '.') :
    extFrom p n = [] ∨
      ∃ i, i < p.length ∧ extFrom p n = p.drop i ∧ p.drop i = '.' :: p.drop (i + 1) ∧
        ∀ c ∈ p.drop (i + 1), c ≠ '.' := by
  induction n with
  | zero => exact Or.inl rfl
  | succ k ih =>
    have hk : k < p.length := hn
    have hdrop : p.drop k = p[k] :: p.drop (k + 1) := List.drop_eq_getElem_cons hk
    have hget : p.getD k '/' = p[k] := by
      simp [List.getD_eq_getElem?_getD, List.getElem?_eq_getElem hk]
    unfold extFrom
    rw [hget]
    by_cases h1 : p[k] = '/'
    · rw [if_pos h1]; exact Or.inl rfl
    · rw [if_neg h1]
      by_cases h2 : p[k] = '.'
      · rw [if_pos h2]
        exact Or.inr ⟨k, hk, rfl, by rw [hdrop, h2], hd⟩
      · rw [if_neg h2]
        refine ih (Nat.le_of_lt hk) ?_
        intro c hc
        rw [hdrop] at hc
        rcases List.mem_cons.mp hc with h | h
        · rw [h]; exact h2
        · exact hd c h

theorem id_decomp (p : GoString) :
    p = stem p ++ Ext p ∧ (Ext p = [] ∨ ∃ t, Ext p = '.' :: t ∧ '.' ∉ t) := by
  rcases extFrom_spec p p.length (Nat.le_refl _) (by simp) with h | ⟨i, hi, he, hc, hn⟩
  · have h0 : Ext p = [] := h
    refine ⟨?_, Or.inl h0⟩
    simp [stem, h0]
  · have he2 : Ext p = p.drop i := he
    have hne : Ext p ≠ [] := by rw [he2, hc]; simp
    constructor
    · unfold stem
      rw [if_pos hne, he2, List.length_drop]
      have : p.length - (p.length - i) = i := by omega
      rw [this, List.take_append_drop]
    · refine Or.inr ⟨p.drop (i + 1), by rw [he2, hc], ?_⟩
      intro hmem
      exact hn _ hmem rfl


theorem stem_subset (id : GoString) (c : Char) (h : c ∈ stem id) : c ∈ id := by
  rw [(id_decomp id).1]
  exact List.mem_append_left _ h

theorem shardOf_length (id : GoString) (h : 2 ≤ (stem id).length) : (shardOf id).length = 2 := by
  unfold shardOf
  rw [List.length_drop]
  omega

theorem shardOf_subset (id : GoString) (c : Char) (h : c ∈ shardOf id) : c ∈ stem id :=
  List.mem_of_mem_drop h

theorem fileOf_subset (id : GoString) (c : Char) (h : c ∈ fileOf id) : c ∈ id := by
  unfold fileOf at h
  rcases List.mem_append.mp h with h | h
  · exact stem_subset id c (List.mem_of_mem_take h)
  · rw [(id_decomp id).1]
    exact List.mem_append_right _ h

theorem stem_eq_rest_shard (id : GoString) :
    stem id = (stem id).take ((stem id).length - 2) ++ shardOf id :=
  (List.take_append_drop _ _).symm

theorem shardOf_plain (id : GoString) (h : 2 ≤ (stem id).length) (hs : '/' ∉ id)
    (hd : shardOf id ≠ ['.', '.']) : Plain (shardOf id) := by
  have hl := shardOf_length id h
  refine ⟨?_, ?_, ?_, hd⟩
  · intro h0; rw [h0] at hl; simp at hl
  · exact fun hm => hs (stem_subset id _ (shardOf_subset id _ hm))
  · intro h0; rw [h0] at hl; simp at hl

theorem path_panics (f : fsDriver) (id : GoString) (h : ¬ 2 ≤ (stem id).length) :
    f.path id = .panic "slice bounds out of range" := by
  have hs : ((stem id).length : Int) - 2 < 0 := by omega
  have e : (if Ext id ≠ [] then id.take (id.length - (Ext id).length) else id) = stem id := rfl
  simp only [fsDriver.path, e, if_pos hs]

/-- C15, as stated, fails for an id of exactly two bytes: the stem `XY` has two
bytes and `path` is defined, but the file name below the shard is empty and
the blob is the file `base/XY`, directly in the base directory. -/
theorem path_level_counterexample :
    2 ≤ (stem "XY".toList).length ∧ shardOf "XY".toList = "XY".toList ∧
    fileOf "XY".toList = [] ∧ baseDriver.path "XY".toList = .done "base/XY".toList := by
  decide

/-- C15 (definedness of `path`), amended: `path(id)` is defined exactly when
the stem of the id has at least two bytes, and then the shard has exactly two
bytes; when moreover the id has no slash, the shard is not `..` and the file
name is neither empty nor `.` nor `..`, the blob lies one directory level
below the base: its path is the cleaned base, the shard and the file name. -/
theorem path_defined_iff (f : fsDriver) (id : GoString) :
    ((∃ p, f.path id = .done p) ↔ 2 ≤ (stem id).length) ∧
    (2 ≤ (stem id).length →
      (shardOf id).length = 2 ∧ f.path id = .done (Join [f.dir, shardOf id, fileOf id])) ∧
    (2 ≤ (stem id).length → '/' ∉ id → shardOf id ≠ ['.', '.'] →
      fileOf id ≠ [] → fileOf id ≠ ['.'] → fileOf id ≠ ['.', '.'] →
      f.path id = .done (basePrefix f.dir ++ (shardOf id ++ '/' :: fileOf id)) ∧
      '/' ∉ shardOf id ∧ '/' ∉ fileOf id) := by
  refine ⟨?_, ?_, ?_⟩
  · constructor
    · rintro ⟨p, hp⟩
      by_contra hn
      rw [path_panics f id hn] at hp
      exact Run.noConfusion hp
    · intro h
      exact ⟨_, path_eq_of_stem f id h⟩
  · intro h
    exact ⟨shardOf_length id h, path_eq_of_stem f id h⟩
  · intro h hs hd h1 h2 h3
    have hS := shardOf_plain id h hs hd
    have hF : '/' ∉ fileOf id := fun hm => hs (fileOf_subset id _ hm)
    refine ⟨?_, hS.2.1, hF⟩
    rw [path_eq_of_stem f id h]
    exact congrArg Run.done ((Join_sharded f.dir _ _ hS hF).1 ⟨h1, hF, h2, h3⟩)

theorem path_defined_iff_witness :
    (baseDriver.path "abc123XY.png".toList =
      .done (basePrefix baseDriver.dir ++
        (shardOf "abc123XY.png".toList ++ '/' :: fileOf "abc123XY.png".toList)) ∧
     '/' ∉ shardOf "abc123XY.png".toList ∧ '/' ∉ fileOf "abc123XY.png".toList) ∧
    basePrefix baseDriver.dir = "base/".toList ∧
    shardOf "abc123XY.png".toList = "XY".toList ∧
    fileOf "abc123XY.png".toList = "abc123.png".toList :=
  ⟨(path_defined_iff baseDriver "abc123XY.png".toList).2.2 (by decide) (by decide) (by decide)
    (by decide) (by decide) (by decide), by decide, by decide, by decide⟩

/-! ## Injectivity of `path` -/

theorem split_first_dot (a b x y : GoString) (ha : '.' ∉ a) (hb : '.' ∉ b)
    (hx : x = [] ∨ ∃ t, x = '.' :: t) (hy : y = [] ∨ ∃ t, y = '.' :: t)
    (h : a ++ x = b ++ y) : a = b ∧ x = y := by
  induction a generalizing b with
  | nil =>
    cases b with
    | nil => exact ⟨rfl, h⟩
    | cons d b2 =>
      exfalso
      simp only [List.nil_append, List.cons_append] at h
      rcases hx with hx | ⟨t, hx⟩
      · rw [hx] at h; exact List.noConfusion h
      · rw [hx] at h
        have : '.' = d := (List.cons.inj h).1
        exact hb (this ▸ List.mem_cons_self _ _)
  | cons c a2 ih =>
    cases b with
    | nil =>
      exfalso
      simp only [List.nil_append, List.cons_append] at h
      rcases hy with hy | ⟨t, hy⟩
      · rw [hy] at h; exact List.noConfusion h
      · rw [hy] at h
        have : c = '.' := (List.cons.inj h).1
        exact ha (this ▸ List.mem_cons_self _ _)
    | cons d b2 =>
      simp only [List.cons_append] at h
      obtain ⟨hcd, ht⟩ := List.cons.inj h
      have ha2 : '.' ∉ a2 := fun hm => ha (List.mem_cons_of_mem _ hm)
      have hb2 : '.' ∉ b2 := fun hm => hb (List.mem_cons_of_mem _ hm)
      obtain ⟨e1, e2⟩ := ih b2 ha2 hb2 ht
      exact ⟨by rw [hcd, e1], e2⟩

theorem fileOf_cases (id : GoString) (hs : '/' ∉ id) (hd : '.' ∉ stem id)
    (he : fileOf id ≠ ['.']) : fileOf id = [] ∨ Plain (fileOf id) := by
  have hF : '/' ∉ fileOf id := fun hm => hs (fileOf_subset id _ hm)
  have hrest : '.' ∉ (stem id).take ((stem id).length - 2) :=
    fun hm => hd (List.mem_of_mem_take hm)
  by_cases h0 : fileOf id = []
  · exact Or.inl h0
  · refine Or.inr ⟨h0, hF, he, ?_⟩
    intro h1
    unfold fileOf at h1
    rcases (id_decomp id).2 with hx | ⟨t, hx, ht⟩
    · rw [hx, List.append_nil] at h1
      exact hrest (h1 ▸ List.mem_cons_self _ _)
    · rw [hx] at h1
      cases hr : (stem id).take ((stem id).length - 2) with
      | nil =>
        rw [hr, List.nil_append] at h1
        have : t = ['.'] := (List.cons.inj h1).2
        exact ht (this ▸ List.mem_cons_self _ _)
      | cons c r2 =>
        rw [hr] at h1 hrest
        simp only [List.cons_append] at h1
        have : c = '.' := (List.cons.inj h1).1
        exact hrest (this ▸ List.mem_cons_self _ _)

/-- The part of the path below the base directory. -/
theorem path_tail (f : fsDriver) (id : GoString) (hs : '/' ∉ id) (hl : 2 ≤ (stem id).length)
    (hd : '.' ∉ stem id) (he : fileOf id ≠ ['.']) :
    (fileOf id = [] ∧ f.path id = .done (basePrefix f.dir ++ shardOf id)) ∨
    (Plain (fileOf id) ∧
      f.path id = .done (basePrefix f.dir ++ (shardOf id ++ '/' :: fileOf id))) := by
  have hS : Plain (shardOf id) := by
    refine shardOf_plain id hl hs ?_
    intro h
    exact hd (shardOf_subset id _ (h ▸ List.mem_cons_self _ _))
  have hF : '/' ∉ fileOf id := fun hm => hs (fileOf_subset id _ hm)
  rw [path_eq_of_stem f id hl]
  rcases fileOf_cases id hs hd he with h0 | hP
  · exact Or.inl ⟨h0, congrArg Run.done ((Join_sharded f.dir _ _ hS hF).2 (Or.inl h0))⟩
  · exact Or.inr ⟨hP, congrArg Run.done ((Join_sharded f.dir _ _ hS hF).1 hP)⟩

theorem id_of_parts (id : GoString) :
    id = (stem id).take ((stem id).length - 2) ++ shardOf id ++ Ext id := by
  rw [← stem_eq_rest_shard]
  exact (id_decomp id).1

/-- C16, as stated, fails: the ids `XY.` and `XY` have no slash, and both have
the stem `XY` of two bytes without a dot, yet both lie at `base/XY`. -/
theorem path_injective_counterexample :
    '/' ∉ "XY.".toList ∧ '/' ∉ "XY".toList ∧
    stem "XY.".toList = "XY".toList ∧ stem "XY".toList = "XY".toList ∧
    baseDriver.path "XY.".toList = .done "base/XY".toList ∧
    baseDriver.path "XY".toList = .done "base/XY".toList ∧
    "XY.".toList ≠ "XY".toList := by
  decide

/-- C16 (injectivity of `path`), amended to ids whose file name below the
shard is not the single dot, that is to ids other than a two-byte stem
followed by a dot: for two such ids without a slash whose stems have at least
two bytes and no dot, equal paths imply equal ids. -/
theorem path_injective (f : fsDriver) (id1 id2 : GoString)
    (hs1 : '/' ∉ id1) (hs2 : '/' ∉ id2)
    (hl1 : 2 ≤ (stem id1).length) (hl2 : 2 ≤ (stem id2).length)
    (hd1 : '.' ∉ stem id1) (hd2 : '.' ∉ stem id2)
    (he1 : fileOf id1 ≠ ['.']) (he2 : fileOf id2 ≠ ['.'])
    (hp : f.path id1 = f.path id2) : id1 = id2 := by
  have hS1 := shardOf_length id1 hl1
  have hS2 := shardOf_length id2 hl2
  have hr1 : '.' ∉ (stem id1).take ((stem id1).length - 2) :=
    fun hm => hd1 (List.mem_of_mem_take hm)
  have hr2 : '.' ∉ (stem id2).take ((stem id2).length - 2) :=
    fun hm => hd2 (List.mem_of_mem_take hm)
  have hx1 : Ext id1 = [] ∨ ∃ t, Ext id1 = '.' :: t := by
    rcases (id_decomp id1).2 with h | ⟨t, h, -⟩
    · exact Or.inl h
    · exact Or.inr ⟨t, h⟩
  have hx2 : Ext id2 = [] ∨ ∃ t, Ext id2 = '.' :: t := by
    rcases (id_decomp id2).2 with h | ⟨t, h, -⟩
    · exact Or.inl h
    · exact Or.inr ⟨t, h⟩
  have finish : shardOf id1 = shardOf id2 → fileOf id1 = fileOf id2 → id1 = id2 := by
    intro eS eF
    obtain ⟨er, ee⟩ := split_first_dot _ _ _ _ hr1 hr2 hx1 hx2 eF
    rw [id_of_parts id1, id_of_parts id2, er, eS, ee]
  rcases path_tail f id1 hs1 hl1 hd1 he1 with ⟨f1, p1⟩ | ⟨f1, p1⟩ <;>
    rcases path_tail f id2 hs2 hl2 hd2 he2 with ⟨f2, p2⟩ | ⟨f2, p2⟩
  · rw [p1, p2] at hp
    have e := List.append_cancel_left (Run.done.inj hp)
    exact finish e (f1.trans f2.symm)
  · rw [p1, p2] at hp
    have e := List.append_cancel_left (Run.done.inj hp)
    have hl := congrArg List.length e
    simp only [List.length_append, List.length_cons] at hl
    omega
  · rw [p1, p2] at hp
    have e := List.append_cancel_left (Run.done.inj hp)
    have hl := congrArg List.length e
    simp only [List.length_append, List.length_cons] at hl
    omega
  · rw [p1, p2] at hp
    have e := List.append_cancel_left (Run.done.inj hp)
    obtain ⟨eS, eF⟩ := List.append_inj e (hS1.trans hS2.symm)
    exact finish eS (List.cons.inj eF).2

theorem path_injective_witness :
    '/' ∉ "abXY.".toList ∧ 2 ≤ (stem "abXY.".toList).length ∧
    '.' ∉ stem "abXY.".toList ∧ fileOf "abXY.".toList ≠ ['.'] ∧
    baseDriver.path "abXY.".toList = baseDriver.path ['a', 'b', 'X', 'Y', '.'] ∧
    baseDriver.path "abXY.".toList = .done "base/XY/ab.".toList ∧
    "abXY.".toList = ['a', 'b', 'X', 'Y', '.'] :=
  ⟨by decide, by decide, by decide, by decide, rfl, by decide,
   path_injective baseDriver "abXY.".toList ['a', 'b', 'X', 'Y', '.']
    (by decide) (by decide) (by decide) (by decide) (by decide) (by decide) (by decide)
    (by decide) rfl⟩

end Gondola
